import Mathlib

/-!
Verification of the parivaha incremental tree-synchronization engine
(`src/parivaha/sync.py`, `src/parivaha/obsidian_io.py`) against its
natural-language specification.

The Python code is shallowly embedded: filesystem state is an explicit
record of files and directories, remote (Notion) state is a list of pages,
every effectful call (`write_text`, `unlink`, `shutil.move`, `rmdir`,
`update_page`, the sync-log save) is recorded in an explicit effect trace,
and the unbounded `while` loops of the source are given an explicit fuel
parameter so that divergence is observable as fuel exhaustion.

Timestamps are natural numbers (one unit = one second for the watermark
arithmetic, and the 24 h staleness threshold is the constant
`hygieneThresholdSecs`).  The md5 content fingerprint of
`hashlib.md5(...).hexdigest()` is modelled by an injective serialization
of the file contents (no claim compares fingerprints, they are only
stored), and the random canvas node id of `generate_canvas_id` is
abstracted away from the canvas file contents.
-/

namespace Parivaha

/-- A filesystem path, as its list of segments from the filesystem root.
`[]` is the filesystem root (whose `parent` is itself, as for `Path("/")`). -/
abbrev FPath := List String

/-- Contents of a vault file.  Markdown files carry YAML front matter
(`frontmatter.load` separates metadata from body) and a body; canvas
side-artifact files carry the title that `write_canvas_file` embeds. -/
inductive FileData where
  | mdF (fm : List (String × String)) (body : String)
  | canvasF (title : String)
  deriving Repr, DecidableEq

/-- The local filesystem: files with contents, and the set of existing
directories (Python `Path.mkdir` / `Path.rmdir` manipulate these). -/
structure FS where
  files : List (FPath × FileData)
  dirs : List FPath
  deriving Repr, DecidableEq

/-- One remote (Notion) page as the engine reads it: id, title property
(`None` models a page whose `Name` property is missing, where `title()`
falls back to `page["id"][:8]`), optional parent relation, last-edited
timestamp, archived flag and the canvas checkbox property. -/
structure Page where
  id : String
  titleProp : Option String
  parent : Option String
  lastEdited : Nat
  archived : Bool
  canvas : Bool
  deriving Repr, DecidableEq

/-- The remote store: its pages, plus the set of page ids whose
`update_page` call fails with a transient network/API error (used to
model `TransientRemoteError`; empty in healthy runs). -/
structure RemoteStore where
  pages : List Page
  failPatch : List String
  deriving Repr, DecidableEq

/-- One sync-log entry (`pages_log[pid]` in `_pull`): last-known parent id,
last-known remote `last_edited_time`, last-known local path relative to the
vault root, and the md5 fingerprint of the file bytes. -/
structure LogEntry where
  parentId : Option String
  lastEdited : Nat
  path : List String
  hash : String
  deriving Repr, DecidableEq

/-- The persisted sync log (`sync_log.json`): watermark plus entries. -/
structure SyncLog where
  lastPull : Option Nat
  pages : List (String × LogEntry)
  deriving Repr, DecidableEq

/-- Effects recorded by the embedding, one per effectful call in the
source.  `renameFile` models `os.rename` / `os.replace`; the constructor
exists so that "the commit is not done by rename" is a meaningful
statement about the trace. -/
inductive Eff where
  | fsWrite (path : FPath)
  | fsRemoveFile (path : FPath)
  | fsRmdir (path : FPath)
  | fsRmtree (path : FPath)
  | fsMoveDir (src dst : FPath)
  | fsMoveFile (src dst : FPath)
  | patch (pageId : String)
  | writeLog (path : FPath)
  | renameFile (src dst : FPath)
  deriving Repr, DecidableEq

/-- Number of remote `update_page` (patch) calls in a trace. -/
def countPatches (t : List Eff) : Nat :=
  t.countP (fun e => match e with | Eff.patch _ => true | _ => false)

/-- Number of local file writes (`write_text`) in a trace, the sync-log
save excluded (it is a `writeLog` effect). -/
def countFsWrites (t : List Eff) : Nat :=
  t.countP (fun e => match e with | Eff.fsWrite _ => true | _ => false)

/-- Whether an effect is a rename (`os.rename` / `os.replace`). -/
def Eff.isRenameEff : Eff → Bool
  | Eff.renameFile _ _ => true
  | _ => false

-- ────────────────────────────────────────────────────────────────────
-- association-list helpers (Python dict: insertion ordered, assignment
-- replaces in place, otherwise appends)
-- ────────────────────────────────────────────────────────────────────

/-- `d.get(k)` on a Python dict. -/
def lookupA {α : Type} (l : List (String × α)) (k : String) : Option α :=
  (l.find? (fun kv => kv.1 = k)).map (fun kv => kv.2)

/-- `d[k] = v` on a Python dict: replace in place, else append. -/
def setA {α : Type} (l : List (String × α)) (k : String) (v : α) :
    List (String × α) :=
  if (l.find? (fun kv => kv.1 = k)).isSome then
    l.map (fun kv => if kv.1 = k then (k, v) else kv)
  else
    l ++ [(k, v)]

/-- `d.pop(k, None)` on a Python dict. -/
def eraseA {α : Type} (l : List (String × α)) (k : String) :
    List (String × α) :=
  l.filter (fun kv => kv.1 ≠ k)

-- ────────────────────────────────────────────────────────────────────
-- filesystem primitives
-- ────────────────────────────────────────────────────────────────────

def FS.fileExists (fs : FS) (p : FPath) : Bool :=
  fs.files.any (fun f => f.1 = p)

def FS.getFile (fs : FS) (p : FPath) : Option FileData :=
  (fs.files.find? (fun f => f.1 = p)).map (fun f => f.2)

def FS.dirExists (fs : FS) (p : FPath) : Bool :=
  fs.dirs.any (fun d => d = p)

/-- Overwrite or create a file (`Path.write_text`). -/
def FS.writeFile (fs : FS) (p : FPath) (d : FileData) : FS :=
  { fs with files :=
      if fs.fileExists p then
        fs.files.map (fun f => if f.1 = p then (p, d) else f)
      else fs.files ++ [(p, d)] }

/-- `Path.unlink`. -/
def FS.removeFile (fs : FS) (p : FPath) : FS :=
  { fs with files := fs.files.filter (fun f => f.1 ≠ p) }

/-- All proper prefixes of a path, the filesystem root excluded. -/
def properPrefixes (p : FPath) : List FPath :=
  (List.range p.length).map (fun n => p.take (n + 1))

/-- `Path.mkdir(parents=True, exist_ok=True)`: create the directory and
every missing ancestor. -/
def FS.mkdirParents (fs : FS) (p : FPath) : FS :=
  { fs with dirs :=
      fs.dirs ++ (properPrefixes p).filter (fun d => ¬ fs.dirExists d) }

/-- Is `pre` a strict prefix of `p` (so `p` lives strictly below the
directory `pre`)? -/
def strictlyUnder (pre p : FPath) : Bool :=
  decide (pre.length < p.length) && p.take pre.length = pre

/-- `any(d.iterdir())`: the directory has some entry — a file or a
directory strictly below it (the embedding keeps `dirs` closed under
parents for every state the engine builds, so an immediate entry exists
exactly when something lives strictly below). -/
def FS.dirNonempty (fs : FS) (p : FPath) : Bool :=
  fs.files.any (fun f => strictlyUnder p f.1) ||
    fs.dirs.any (fun d => strictlyUnder p d)

/-- `Path.rmdir` (the caller checks emptiness first). -/
def FS.rmdir (fs : FS) (p : FPath) : FS :=
  { fs with dirs := fs.dirs.filter (fun d => d ≠ p) }

/-- `shutil.rmtree`: remove a directory with everything below it. -/
def FS.rmtree (fs : FS) (p : FPath) : FS :=
  { fs with
      files := fs.files.filter (fun f => ¬ strictlyUnder p f.1),
      dirs := fs.dirs.filter (fun d => ¬ (d = p || strictlyUnder p d)) }

/-- Rebase one path from the old directory to the new one. -/
def rebasePath (src dst p : FPath) : FPath :=
  if p = src || strictlyUnder src p then dst ++ p.drop src.length else p

/-- `shutil.move(old_dir, new_dir)` when `new_dir` does not exist:
rename the directory, carrying its whole contents. -/
def FS.moveDir (fs : FS) (src dst : FPath) : FS :=
  { fs with
      files := fs.files.map (fun f => (rebasePath src dst f.1, f.2)),
      dirs := fs.dirs.map (fun d => rebasePath src dst d) }

/-- `shutil.move(old_file, new_file)` for a single file. -/
def FS.moveFile (fs : FS) (src dst : FPath) : FS :=
  { fs with files :=
      (fs.files.filter (fun f => f.1 ≠ src)) ++
        ((fs.files.filter (fun f => f.1 = src)).map (fun f => (dst, f.2))) }

/-- `_purge_empty_dirs`: remove empty directories walking up, stopping at
the first non-empty directory or at the filesystem root
(`start != start.parent` is `start ≠ []` here; `Path("/").parent` is
itself).  The walk shortens the path each step, so it is structural on
the path length. -/
def purgeEmptyDirsGo (fuel : Nat) (fs : FS) (start : FPath) : FS × List Eff :=
  match fuel with
  | 0 => (fs, [])
  | fuel + 1 =>
    match start with
    | [] => (fs, [])
    | _ :: _ =>
      if fs.dirExists start && ¬ fs.dirNonempty start then
        let fs1 := fs.rmdir start
        let r := purgeEmptyDirsGo fuel fs1 start.dropLast
        (r.1, Eff.fsRmdir start :: r.2)
      else (fs, [])

/-- The walk strictly shortens the path each iteration, so
`start.length` steps always complete it: the fuel is not a bound the
source imposes, only a representation of the loop's structural
termination. -/
def purgeEmptyDirs (fs : FS) (start : FPath) : FS × List Eff :=
  purgeEmptyDirsGo start.length fs start

-- ────────────────────────────────────────────────────────────────────
-- remote-store primitives (the NotionManager collaborator)
-- ────────────────────────────────────────────────────────────────────

/-- `nm.get_pages(retrieve_all=True)`: the Notion query API does not
return archived (trashed) pages. -/
def getPages (r : RemoteStore) : List Page :=
  r.pages.filter (fun p => ¬ p.archived)

/-- `nm.get_pages(filter last_edited_time after t)`. -/
def getPagesAfter (r : RemoteStore) (t : Nat) : List Page :=
  (getPages r).filter (fun p => t < p.lastEdited)

/-- `nm.get_page(id)`: retrieval by id (archived pages included). -/
def getPage (r : RemoteStore) (pid : String) : Option Page :=
  r.pages.find? (fun p => p.id = pid)

/-- `nm.update_page(pid, …)`: patch a page's properties; Notion bumps the
page's `last_edited_time` to the current clock.  Fails (transient
network/API error) when the id is in `failPatch`. -/
def updatePage (r : RemoteStore) (clock : Nat) (pid : String) :
    Option RemoteStore :=
  if r.failPatch.any (fun x => x = pid) then none
  else
    let ps := r.pages.map
      (fun p => if p.id = pid then { p with lastEdited := clock } else p)
    some { r with pages := ps }

/-- `title(page)` in `_pull`: the `Name` title property, falling back to
the first 8 characters of the id when the property is malformed. -/
def titleOf (p : Page) : String :=
  match p.titleProp with
  | some t => t
  | none => (p.id.toList.take 8).asString

-- ────────────────────────────────────────────────────────────────────
-- change detector (sync.py lines 172–191)
-- ────────────────────────────────────────────────────────────────────

/-- The staleness threshold of the hygiene re-scan: 24 hours, in the
seconds-granularity clock of the embedding. -/
def hygieneThresholdSecs : Nat := 24 * 3600

/-- Lines 173–182: the delta fetch.  With a watermark, only the pages
edited strictly after it; on first run, everything (non-archived). -/
def computeDelta (r : RemoteStore) (lastPull : Option Nat) : List Page :=
  match lastPull with
  | some t => getPagesAfter r t
  | none => getPages r

/-- Lines 184–187: `hygiene_due` — no watermark, or the watermark is more
than 24 h older than the wall clock (`parse_date(last_pull) <
now - timedelta(hours=24)`). -/
def hygieneDue (lastPull : Option Nat) (clock : Nat) : Bool :=
  match lastPull with
  | none => true
  | some t => decide (t + hygieneThresholdSecs < clock)

/-- The change detector as the specification words it (§4.2): nodes
modified after the watermark, unioned with every node present in the
remote set but absent from the sync log.  Written from the spec, to be
compared with `computeDelta`, which is written from the source. -/
def deltaSpec (r : RemoteStore) (pagesLog : List (String × LogEntry))
    (t : Nat) : List Page :=
  (getPages r).filter
    (fun p => decide (t < p.lastEdited) || (lookupA pagesLog p.id).isNone)

-- ────────────────────────────────────────────────────────────────────
-- ancestor walks (sync.py lines 228–244 and 411–418)
-- ────────────────────────────────────────────────────────────────────

/-- One dict/fetch resolution step of the walks:
`page_map.get(pid) or nm.get_page(pid)`. -/
def lookupOrFetch (pageMap : List (String × Page)) (r : RemoteStore)
    (pid : String) : Option Page :=
  match lookupA pageMap pid with
  | some p => some p
  | none => getPage r pid

/-- `_depth` (lines 411–418): walk the parent chain through `page_map`
counting steps; a parent missing from the map yields `cur = {}` which
stops the loop.  `cur = none` models the empty dict.  The source loop is
unbounded (`while cur.get(...)`); fuel exhaustion (`none` result) models
its divergence. -/
def depthGo (pageMap : List (String × Page)) :
    Nat → Option Page → Nat → Option Nat
  | 0, _, _ => none
  | _ + 1, none, d => some d
  | fuel + 1, some p, d =>
    match p.parent with
    | none => some d
    | some pid => depthGo pageMap fuel (lookupA pageMap pid) (d + 1)

/-- `_depth(p)`. -/
def depthOf (pageMap : List (String × Page)) (fuel : Nat) (p : Page) :
    Option Nat :=
  depthGo pageMap fuel (some p) 0

/-- The ancestor-title walk of `write_page` (lines 228–236): build
`parts` by walking the parent chain up, resolving each parent in
`page_map` and falling back to `nm.get_page`.  A parent that resolves
nowhere crashes the Python (`title(None)` raises), modelled as `none`;
fuel exhaustion models the divergence of the unbounded `while True`. -/
def buildPartsGo (pageMap : List (String × Page)) (r : RemoteStore) :
    Nat → Page → List String → Option (List String)
  | 0, _, _ => none
  | fuel + 1, cursor, acc =>
    match cursor.parent with
    | none => some acc
    | some pid =>
      match lookupOrFetch pageMap r pid with
      | none => none
      | some parentPg => buildPartsGo pageMap r fuel parentPg (titleOf parentPg :: acc)

/-- `parts` for a page: its own title, with every ancestor title
prepended (root first). -/
def buildParts (pageMap : List (String × Page)) (r : RemoteStore)
    (fuel : Nat) (pg : Page) : Option (List String) :=
  buildPartsGo pageMap r fuel pg [titleOf pg]

/-- Lines 242–243: `rel_dir = Path(*parts)` and
`md_path = rel_dir / (title + ".md")` — the relative markdown path. -/
def buildMdPath (pageMap : List (String × Page)) (r : RemoteStore)
    (fuel : Nat) (pg : Page) : Option (List String) :=
  (buildParts pageMap r fuel pg).map (fun parts => parts ++ [titleOf pg ++ ".md"])

-- ────────────────────────────────────────────────────────────────────
-- document rendering (sync.py lines 305–347, obsidian_io.py 85–115)
-- ────────────────────────────────────────────────────────────────────

-- ────────────────────────────────────────────────────────────────────
-- string primitives (kernel-computable models of the Python string
-- operations the engine uses)
-- ────────────────────────────────────────────────────────────────────

def charSplitGo (sep : Char) : List Char → List Char → List (List Char)
  | [], acc => [acc.reverse]
  | c :: rest, acc =>
    if c = sep then acc.reverse :: charSplitGo sep rest []
    else charSplitGo sep rest (c :: acc)

/-- `s.splitlines()`-style split on a separator character
(`str.split(sep)` semantics: `"a\nb" → ["a","b"]`, `"" → [""]`). -/
def splitLines (s : String) : List String :=
  (charSplitGo '\n' s.toList []).map List.asString

def startsWithS (s pre : String) : Bool := pre.toList.isPrefixOf s.toList

def endsWithS (s suf : String) : Bool :=
  suf.toList.reverse.isPrefixOf s.toList.reverse

def containsGo (pat : List Char) : List Char → Bool
  | [] => decide (pat = [])
  | c :: rest => pat.isPrefixOf (c :: rest) || containsGo pat rest

/-- `pat in s` (substring containment). -/
def containsSub (s pat : String) : Bool := containsGo pat.toList s.toList

def replaceGo (pat sub : List Char) : Nat → List Char → List Char
  | _, [] => []
  | 0, s => s
  | fuel + 1, c :: rest =>
    if pat ≠ [] && pat.isPrefixOf (c :: rest) then
      sub ++ replaceGo pat sub fuel ((c :: rest).drop pat.length)
    else c :: replaceGo pat sub fuel rest

/-- `s.replace(pat, sub)`: replace every non-overlapping occurrence, left
to right (the engine never calls it with an empty pattern). -/
def replaceS (s pat sub : String) : String :=
  (replaceGo pat.toList sub.toList s.toList.length s.toList).asString

/-- `s.rstrip()`. -/
def rstripS (s : String) : String :=
  (s.toList.reverse.dropWhile Char.isWhitespace).reverse.asString

/-- `str.lower()` (ASCII range; titles in this model are ASCII). -/
def lowerS (s : String) : String :=
  (s.toList.map (fun c =>
    if 'A' ≤ c ∧ c ≤ 'Z' then Char.ofNat (c.toNat + 32) else c)).asString

def lexLeChars : List Char → List Char → Bool
  | [], _ => true
  | _ :: _, [] => false
  | a :: as, b :: bs => if a = b then lexLeChars as bs else decide (a < b)

/-- Lexicographic `≤` on strings (Python string comparison for the sort
key of the root ordering). -/
def lexLeS (a b : String) : Bool := lexLeChars a.toList b.toList

/-- Stable insertion of `x` in front of the first element it is `le` to:
with a total preorder this is exactly the stable sort order of Python
`sorted`. -/
def insertStable {α : Type} (le : α → α → Bool) (x : α) : List α → List α
  | [] => [x]
  | y :: ys => if le x y then x :: y :: ys else y :: insertStable le x ys

/-- Stable sort (Python `sorted(…, key=…)`). -/
def sortStable {α : Type} (le : α → α → Bool) : List α → List α
  | [] => []
  | x :: xs => insertStable le x (sortStable le xs)

/-- `pid.replace('-','')`. -/
def pidNoDashes (pid : String) : String :=
  (pid.toList.filter (fun c => c ≠ '-')).asString

def notionUrlOf (pid : String) : String :=
  "https://www.notion.so/" ++ pidNoDashes pid

def joinPath (p : List String) : String := String.intercalate "/" p

def joinLines (l : List String) : String := String.intercalate "\n" l

/-- The markdown body built by `write_page` (lines 320–346): separator,
optional parent breadcrumb, optional canvas link, separator, the
open-in-Notion bullet, trailing separator. -/
def pullBody (isRoot canvasChecked : Bool) (relDir : List String)
    (titleStr pid : String) : String :=
  let b0 : List String := ["---"]
  let parentRef := joinPath (relDir.dropLast ++ [relDir.dropLast.getLastD ""])
  let b1 := if ¬ isRoot then b0 ++ ["*Parent*: [[" ++ parentRef ++ "]]"] else b0
  let b2 := if canvasChecked then
      b1 ++ ["*Canvas:* [[" ++ relDir.getLastD "" ++ "/" ++ titleStr ++ ".canvas]]"]
    else b1
  let b3 := b2 ++ ["", "---"]
  let b4 := b3 ++ ["- [Open in Notion](" ++ notionUrlOf pid ++ ")"]
  joinLines (b4 ++ ["---"])

/-- `re.match(r"\[.*\]\(https://www.notion.so/", line)` of
`write_remote_page`, rendered on one line. -/
def looksLikeNotionLinkLine (l : String) : Bool :=
  startsWithS l "[" && containsSub l "](https://www.notion.so/"

/-- `ObsidianWriter.write_remote_page` body handling: when the first line
is a heading, make the second line the Notion link (replace an existing
link line, else insert). -/
def remotePageBody (content url linkText : String) : String :=
  let lines := splitLines content
  match lines with
  | [] => content
  | first :: rest =>
    if startsWithS first "#" then
      let linkLine := "[" ++ linkText ++ "](" ++ url ++ ")"
      match rest with
      | l2 :: restTl =>
        if looksLikeNotionLinkLine l2 then joinLines (first :: linkLine :: restTl)
        else joinLines (first :: linkLine :: l2 :: restTl)
      | [] => joinLines [first, linkLine]
    else content

/-- The file `write_remote_page` persists: YAML front matter
(`notion_id`, `last_synced`, `tags` — the single tag the pull path
passes) and the body.  The wall-clock ISO timestamp is rendered from the
clock. -/
def remotePageFile (pid : String) (clock : Nat) (tag : String)
    (content url linkText : String) : FileData :=
  FileData.mdF
    [("notion_id", pid), ("last_synced", toString clock ++ "Z"), ("tags", tag)]
    (remotePageBody content url linkText)

/-- `hashlib.md5(file_bytes).hexdigest()`: modelled as an injective
serialization of the file contents (the digest is stored in the log but
never compared by the engine). -/
def fingerprint : FileData → String
  | FileData.mdF fm body =>
    "md:" ++ (fm.foldl (fun a kv => a ++ "|" ++ kv.1 ++ "=" ++ kv.2) "") ++ "#" ++ body
  | FileData.canvasF t => "canvas:" ++ t

/-- `update_inbound_links`: for every markdown file in the vault, rewrite
`[[old-ref]]` → `[[new-ref]]` (extension-stripped, `str.replace`-all of
`".md"` like the source) and `[[old-path]]` → `[[new-path]]`, rewriting
the file only when its text changed.  Links live in document bodies. -/
def inboundStep (vr : FPath) (oldRef newRef oldP newP : String)
    (acc : FS × List Eff) (f : FPath × FileData) : FS × List Eff :=
  match f.2 with
  | FileData.mdF fm body =>
    if strictlyUnder vr f.1 && endsWithS (f.1.getLastD "") ".md" then
      let b1 := replaceS body ("[[" ++ oldRef ++ "]]") ("[[" ++ newRef ++ "]]")
      let b2 := replaceS b1 ("[[" ++ oldP ++ "]]") ("[[" ++ newP ++ "]]")
      if b2 ≠ body then
        (acc.1.writeFile f.1 (FileData.mdF fm b2), acc.2 ++ [Eff.fsWrite f.1])
      else acc
    else acc
  | FileData.canvasF _ => acc

def updateInboundLinks (vr : FPath) (fs : FS) (oldPath newPath : List String) :
    FS × List Eff :=
  let oldRef := replaceS (joinPath oldPath) ".md" ""
  let newRef := replaceS (joinPath newPath) ".md" ""
  fs.files.foldl
    (inboundStep vr oldRef newRef (joinPath oldPath) (joinPath newPath)) (fs, [])

/-- Canvas-bullet strip of lines 402–407: drop every line exactly equal
to the `- [[dir/title.canvas]]` bullet. -/
def stripCanvasBullets (dirName titleStr body : String) : String :=
  let bullet := "- [[" ++ dirName ++ "/" ++ titleStr ++ ".canvas]]"
  joinLines ((splitLines body).filter (fun l => l ≠ bullet))

-- ────────────────────────────────────────────────────────────────────
-- page-map closure (sync.py lines 200–215)
-- ────────────────────────────────────────────────────────────────────

/-- Step 2 of `_pull`: close the delta set over parents.  `queue.pop()`
takes the queue's last element, so the queue is kept reversed here
(head = next pop, appends prepend).  Already-mapped ids are skipped;
parents absent from the map are fetched and enqueued when retrievable. -/
def buildPageMapGo (r : RemoteStore) :
    Nat → List Page → List (String × Page) → List (String × Page)
  | 0, _, m => m
  | _ + 1, [], m => m
  | fuel + 1, pg :: rest, m =>
    if (lookupA m pg.id).isSome then buildPageMapGo r fuel rest m
    else
      let m1 := setA m pg.id pg
      match pg.parent with
      | none => buildPageMapGo r fuel rest m1
      | some pid =>
        if (lookupA m1 pid).isSome then buildPageMapGo r fuel rest m1
        else
          match getPage r pid with
          | some parentPg => buildPageMapGo r fuel (parentPg :: rest) m1
          | none => buildPageMapGo r fuel rest m1

def buildPageMap (r : RemoteStore) (delta : List Page) (fuel : Nat) :
    List (String × Page) :=
  buildPageMapGo r fuel delta.reverse []

-- ────────────────────────────────────────────────────────────────────
-- write_page (sync.py lines 220–408)
-- ────────────────────────────────────────────────────────────────────

/-- Failures of a pull run: a transient remote (network/API) error from
`update_page`, or a crash/divergence of the Python (unresolvable page,
missing file where one is read, unbounded ancestor walk). -/
inductive PullErr where
  | transientErr (pid : String)
  | dataErr
  deriving Repr, DecidableEq

/-- The in-run mutable state of `_pull`. -/
structure Ctx where
  remote : RemoteStore
  clock : Nat
  fs : FS
  pagesLog : List (String × LogEntry)
  trace : List Eff
  deriving Repr, DecidableEq

/-- The whole-folder move of `write_page` (lines 261–289), taken when
`has_children` holds: remove a pre-existing target directory, relocate
the old directory wholesale, drop a stale duplicate of the old hub file,
rebase every logged path under the old prefix, and clear any remainder
of the old directory. -/
def folderMoveCtx (vr : FPath) (ctx : Ctx) (oldMeta : LogEntry)
    (mdPath : List String) : Ctx :=
  let absMd := vr ++ mdPath
  let oldDir := (vr ++ oldMeta.path).dropLast
  let newDir := absMd.dropLast
  if oldDir ≠ newDir then
    let fs1 := ctx.fs.mkdirParents newDir.dropLast
    let doClear := fs1.dirExists newDir
    let fs2 := if doClear then fs1.rmtree newDir else fs1
    let tr2 : List Eff := if doClear then [Eff.fsRmtree newDir] else []
    let fs3 := fs2.moveDir oldDir newDir
    let oldMdInNew := newDir ++ [oldDir.getLastD "" ++ ".md"]
    let doDrop := fs3.fileExists oldMdInNew && oldMdInNew ≠ absMd
    let fs4 := if doDrop then fs3.removeFile oldMdInNew else fs3
    let tr4 : List Eff := if doDrop then [Eff.fsRemoveFile oldMdInNew] else []
    -- bulk path-rebase of every logged entry under the old prefix
    let oldPre := oldMeta.path.dropLast
    let newPre := mdPath.dropLast
    let log4 := ctx.pagesLog.map (fun kv =>
      if strictlyUnder oldPre kv.2.path then
        (kv.1, { kv.2 with path := newPre ++ kv.2.path.drop oldPre.length })
      else kv)
    let doRmOld := fs4.dirExists oldDir
    let fs5 := if doRmOld then fs4.rmtree oldDir else fs4
    let tr5 : List Eff := if doRmOld then [Eff.fsRmtree oldDir] else []
    let trAll := ctx.trace ++ tr2 ++ [Eff.fsMoveDir oldDir newDir] ++ tr4 ++ tr5
    { ctx with fs := fs5, pagesLog := log4, trace := trAll }
  else ctx

/-- The single-file move of `write_page` (lines 290–299), taken when the
old directory is missing or empty; `shutil.move` raises when the source
file is missing or equals the destination, and the exception is caught
(lines 300–301), ending the try block with no further effect. -/
def singleMoveCtx (vr : FPath) (ctx : Ctx) (oldMeta : LogEntry)
    (mdPath : List String) : Ctx :=
  let oldAbs := vr ++ oldMeta.path
  let absMd := vr ++ mdPath
  let fs1 := ctx.fs.mkdirParents absMd.dropLast
  if fs1.fileExists oldAbs && oldAbs ≠ absMd then
    let fs2 := fs1.moveFile oldAbs absMd
    let doRm := fs2.fileExists oldAbs && oldAbs ≠ absMd
    let fs3 := if doRm then fs2.removeFile oldAbs else fs2
    let tr3 : List Eff := if doRm then [Eff.fsRemoveFile oldAbs] else []
    let (fs4, tr4) := purgeEmptyDirs fs3 oldAbs.dropLast
    let trAll := ctx.trace ++ [Eff.fsMoveFile oldAbs absMd] ++ tr3 ++ tr4
    { ctx with fs := fs4, trace := trAll }
  else { ctx with fs := fs1 }

def moveStep (vr : FPath) (ctx : Ctx) (oldMeta : LogEntry)
    (mdPath : List String) : Ctx :=
  let oldAbs := vr ++ oldMeta.path
  -- `has_children = old_abs.parent.exists() and any(old_abs.parent.iterdir())`
  let hasChildren := ctx.fs.dirExists oldAbs.dropLast &&
    ctx.fs.dirNonempty oldAbs.dropLast
  let ctx1 :=
    if hasChildren then folderMoveCtx vr ctx oldMeta mdPath
    else singleMoveCtx vr ctx oldMeta mdPath
  -- line 303: always rewrite inbound links after a detected move
  let (fs6, tr6) := updateInboundLinks vr ctx1.fs oldMeta.path mdPath
  { ctx1 with fs := fs6, trace := ctx1.trace ++ tr6 }

/-- The canvas side-artifact handling of `write_page` (lines 385–408):
create the canvas file when the flag is set and it is missing; on
un-check, delete it and strip its link bullet from the markdown body
(which `frontmatter.load` re-reads — a missing or non-markdown file
there crashes the Python). -/
def canvasStep (vr : FPath) (relDir : List String) (titleStr : String)
    (canvasChecked : Bool) (absMd : FPath) (ctx3 : Ctx) : Except PullErr Ctx :=
  let canvasFile := vr ++ relDir ++ [titleStr ++ ".canvas"]
  if canvasChecked && ¬ ctx3.fs.fileExists canvasFile then
    let fs1 := (ctx3.fs.mkdirParents canvasFile.dropLast).writeFile canvasFile
      (FileData.canvasF titleStr)
    pure { ctx3 with fs := fs1, trace := ctx3.trace ++ [Eff.fsWrite canvasFile] }
  else if ¬ canvasChecked && ctx3.fs.fileExists canvasFile then
    let fs1 := ctx3.fs.removeFile canvasFile
    match fs1.getFile absMd with
    | some (FileData.mdF fm body) =>
      let fs2 := fs1.writeFile absMd
        (FileData.mdF fm (stripCanvasBullets (relDir.getLastD "") titleStr body))
      let tr2 := ctx3.trace ++ [Eff.fsRemoveFile canvasFile, Eff.fsWrite absMd]
      pure { ctx3 with fs := fs2, trace := tr2 }
    | _ => throw PullErr.dataErr
  else
    pure ctx3

/-- `write_page(pg)` (lines 220–408): path construction, move/rename
reconciliation, conditional materialization with remote bookkeeping
patches, log-entry refresh and canvas handling. -/
def writePage (vr : FPath) (pageMap : List (String × Page)) (fuel : Nat)
    (ctx : Ctx) (pg : Page) : Except PullErr Ctx := do
  let pid := pg.id
  let titleStr := titleOf pg
  let directParent := pg.parent
  let parts ← match buildParts pageMap ctx.remote fuel pg with
    | some p => pure p
    | none => throw PullErr.dataErr
  let relDir := parts
  let mdPath := parts ++ [titleStr ++ ".md"]
  let absMd := vr ++ mdPath
  let oldMeta := lookupA ctx.pagesLog pid
  -- move / rename detection (line 252)
  let ctx1 :=
    match oldMeta with
    | some m =>
      if m.path ≠ mdPath || m.parentId ≠ directParent then
        moveStep vr ctx m mdPath
      else ctx
    | none => ctx
  -- `need_write` (lines 306–310)
  let needWrite :=
    ¬ ctx1.fs.fileExists absMd ||
    (match oldMeta with | some m => decide (pg.lastEdited ≠ m.lastEdited) | none => true) ||
    (match oldMeta with | some m => decide (m.path ≠ mdPath) | none => true)
  let isRoot := directParent.isNone
  let ctx2 ← (do
    if needWrite then
      let canvasChecked := pg.canvas
      let fs1 := ctx1.fs.mkdirParents absMd.dropLast
      let content := pullBody isRoot canvasChecked relDir titleStr pid
      -- `writer.write_remote_page({...})`
      let fileD := remotePageFile pid ctx1.clock
        (if isRoot then "#root" else "#branch") content (notionUrlOf pid)
        ((splitLines content).headD "")
      let fs2 := (fs1.mkdirParents absMd.dropLast).writeFile absMd fileD
      let tr2 := [Eff.fsWrite absMd]
      -- bookkeeping patch, only when path or root/branch tag changed
      let oldParentIsNone :=
        match oldMeta with | some m => m.parentId.isNone | none => true
      let patchNeeded :=
        (match oldMeta with | some m => decide (m.path ≠ mdPath) | none => true) ||
        decide (isRoot ≠ oldParentIsNone)
      let (remote3, clock3, tr3) ←
        if patchNeeded then
          match updatePage ctx1.remote ctx1.clock pid with
          | none => throw (PullErr.transientErr pid)
          | some r1 =>
            -- `mark_sync_complete` is a second update_page call
            match updatePage r1 (ctx1.clock + 1) pid with
            | none => throw (PullErr.transientErr pid)
            | some r2 => pure (r2, ctx1.clock + 2, tr2 ++ [Eff.patch pid, Eff.patch pid])
        else pure (ctx1.remote, ctx1.clock, tr2)
      -- line 373: refresh metadata to capture the new last_edited_time
      let pgRefreshed ← match getPage remote3 pid with
        | some p => pure p
        | none => throw PullErr.dataErr
      let ctxNew : Ctx :=
        { remote := remote3, clock := clock3, fs := fs2,
          pagesLog := ctx1.pagesLog, trace := ctx1.trace ++ tr3 }
      pure (ctxNew, pgRefreshed)
    else pure (ctx1, pg) : Except PullErr (Ctx × Page))
  let ctxW := ctx2.1
  let pgW := ctx2.2
  -- log entry refresh (lines 376–383); hashing reads the file's bytes
  let fileNow ← match ctxW.fs.getFile absMd with
    | some d => pure d
    | none => throw PullErr.dataErr
  let entry : LogEntry :=
    { parentId := directParent, lastEdited := pgW.lastEdited,
      path := mdPath, hash := fingerprint fileNow }
  let ctx3 := { ctxW with pagesLog := setA ctxW.pagesLog pid entry }
  canvasStep vr relDir titleStr pgW.canvas absMd ctx3

-- ────────────────────────────────────────────────────────────────────
-- sibling-chain rebuild (sync.py lines 443–474)
-- ────────────────────────────────────────────────────────────────────

/-- The remainder after the first occurrence of `pat` (none if absent). -/
def afterSubGo (pat : List Char) : List Char → Option (List Char)
  | [] => if pat = [] then some [] else none
  | c :: rest =>
    if pat.isPrefixOf (c :: rest) then some ((c :: rest).drop pat.length)
    else afterSubGo pat rest

/-- The characters before the first occurrence of `pat`. -/
def beforeSubGo (pat : List Char) : List Char → List Char
  | [] => []
  | c :: rest => if pat.isPrefixOf (c :: rest) then [] else c :: beforeSubGo pat rest

def beforeSub (s pat : String) : String := (beforeSubGo pat.toList s.toList).asString

/-- One line matched (and wholly removed) by the bullet-stripping pattern
`^[ \t]*-\s+\[\[.*?\/.*?\]\]\s*\n?`: leading blanks, a dash, whitespace,
a `[[…/…]]` wiki link, then only whitespace to the end of the line. -/
def isSiblingBullet (l : String) : Bool :=
  let t := l.toList.dropWhile (fun c => c = ' ' || c = '\t')
  match t with
  | '-' :: rest =>
    let r1 := rest.dropWhile Char.isWhitespace
    if decide (r1.length < rest.length) && ['[', '['].isPrefixOf r1 then
      match afterSubGo ['/'] (r1.drop 2) with
      | some afterSlash =>
        match afterSubGo [']', ']'] afterSlash with
        | some tail => tail.all Char.isWhitespace
        | none => false
      | none => false
    else false
  | _ => false

/-- The block-stripping pattern
`\*Siblings:\*[\s\S]*?(?:\n{2,}|$)` with `re.MULTILINE`: the lazy body
stops at the first end of line, where the greedy `\n{2,}` alternative
additionally consumes a whole run of at least two newlines.  Rendered on
the line list: the marker line keeps only its prefix before the marker;
a following newline run of length at least two is consumed (joining the
prefix with the next content line). -/
def stripSiblingsGo : Nat → List String → List String
  | 0, ls => ls
  | _ + 1, [] => []
  | fuel + 1, l :: rest =>
    if containsSub l "*Siblings:*" then
      let pre := beforeSub l "*Siblings:*"
      let k := (rest.takeWhile (fun x => x = "")).length
      let tl := rest.drop k
      match tl with
      | next :: tl2 =>
        if 1 ≤ k then stripSiblingsGo fuel ((pre ++ next) :: tl2)
        else pre :: stripSiblingsGo fuel rest
      | [] => if 2 ≤ k then [pre] else pre :: rest
    else l :: stripSiblingsGo fuel rest

/-- `re.sub(r"\n{3,}", "\n\n", …)`: collapse newline runs of three or
more to exactly two. -/
def collapseNLGo : Nat → List Char → List Char
  | 0, s => s
  | _ + 1, [] => []
  | fuel + 1, c :: rest =>
    if c = '\n' then
      let run := rest.takeWhile (fun x => x = '\n')
      let tl := rest.drop run.length
      if 2 ≤ run.length then '\n' :: '\n' :: collapseNLGo fuel tl
      else (c :: run) ++ collapseNLGo fuel tl
    else c :: collapseNLGo fuel rest

/-- The `_write_sibling_block` body transformation for one hub document:
strip old sibling bullets, strip the old `*Siblings:*` block, collapse
blank runs, then append the single forward link when the root is not the
tail of the chain. -/
def rebuildSiblingBody (body : String) (next : Option String) : String :=
  let l1 := (splitLines body).filter (fun l => ¬ isSiblingBullet l)
  let l2 := stripSiblingsGo (l1.length + 1) l1
  let s2 := (collapseNLGo (joinLines l2).toList.length (joinLines l2).toList).asString
  match next with
  | some t => rstripS s2 ++ "\n\n*Siblings:*\n- [[" ++ t ++ "/" ++ t ++ "]]\n"
  | none => s2

-- ────────────────────────────────────────────────────────────────────
-- pull pipeline (sync.py lines 145–490)
-- ────────────────────────────────────────────────────────────────────

/-- `get_sync_log_path(vault_root)` = `<root>/.sync/sync_log.json`. -/
def logPathOf (vr : FPath) : FPath := vr ++ [".sync", "sync_log.json"]

/-- Ordering of step 4: `sorted(page_map.values(), key=_depth)` — stable
sort by depth, roots first; `none` when a depth walk diverges. -/
def sortPagesByDepth (pageMap : List (String × Page)) (fuel : Nat)
    (pages : List Page) : Option (List Page) :=
  match pages.mapM (fun p => (depthOf pageMap fuel p).map (fun d => (d, p))) with
  | some keyed =>
    some ((sortStable (fun a b => decide (a.1 ≤ b.1)) keyed).map (fun kp => kp.2))
  | none => none

/-- One iteration of the deletion-reconciliation loop (lines 433–440):
the log entry whose id is not alive loses its local document (when it
exists), now-empty ancestor directories are pruned, and the entry is
popped from the log. -/
def deletionStep (vr : FPath) (alive : List String)
    (acc : FS × List (String × LogEntry) × List Eff) (kv : String × LogEntry) :
    FS × List (String × LogEntry) × List Eff :=
  if alive.any (fun a => a = kv.1) then acc
  else
    let mdAbs := vr ++ kv.2.path
    let (fs1, tr1) :=
      if acc.1.fileExists mdAbs then
        let f2 := acc.1.removeFile mdAbs
        let (f3, trP) := purgeEmptyDirs f2 mdAbs.dropLast
        (f3, Eff.fsRemoveFile mdAbs :: trP)
      else (acc.1, [])
    (fs1, eraseA acc.2.1 kv.1, acc.2.2 ++ tr1)

/-- Step 5 of `_pull`: iterate `list(pages_log.items())` (a snapshot),
removing every entry whose remote id is not in the live id set. -/
def deletionPass (vr : FPath) (alive : List String) (fs : FS)
    (pagesLog : List (String × LogEntry)) :
    FS × List (String × LogEntry) × List Eff :=
  pagesLog.foldl (deletionStep vr alive) (fs, pagesLog, [])

/-- The per-root body of `_write_sibling_block`: skip missing files,
otherwise rewrite the hub document with the regenerated sibling chain
(one forward link, none for the tail). -/
def siblingLoop (vr : FPath) (pagesLog : List (String × LogEntry)) :
    FS → List Eff → List (String × String) → Except PullErr (FS × List Eff)
  | fs, tr, [] => Except.ok (fs, tr)
  | fs, tr, (rid, _) :: rest => do
    match lookupA pagesLog rid with
    | none => throw PullErr.dataErr
    | some e =>
      let mdAbs := vr ++ e.path
      if ¬ fs.fileExists mdAbs then siblingLoop vr pagesLog fs tr rest
      else
        match fs.getFile mdAbs with
        | some (FileData.mdF fm body) =>
          let nextTitle := rest.head?.map (fun x => x.2)
          let body2 := rebuildSiblingBody body nextTitle
          siblingLoop vr pagesLog (fs.writeFile mdAbs (FileData.mdF fm body2))
            (tr ++ [Eff.fsWrite mdAbs]) rest
        | _ => throw PullErr.dataErr

/-- Step 6 of `_pull`: collect root ids from the log, resolve their
titles (`page_map.get(rid) or nm.get_page(rid)`; irresolvable roots
crash the Python), sort by lowercased title, and rebuild the chain. -/
def siblingPass (vr : FPath) (pageMap : List (String × Page))
    (r : RemoteStore) (pagesLog : List (String × LogEntry)) (fs : FS) :
    Except PullErr (FS × List Eff) := do
  let rootIds := (pagesLog.filter (fun kv => kv.2.parentId.isNone)).map (fun kv => kv.1)
  let keyed ← rootIds.mapM (fun rid =>
    match lookupOrFetch pageMap r rid with
    | some p => Except.ok (rid, titleOf p)
    | none => throw PullErr.dataErr)
  let sorted := sortStable (fun a b => lexLeS (lowerS a.2) (lowerS b.2)) keyed
  siblingLoop vr pagesLog fs [] sorted

/-- Outcome of a pull run: final filesystem, remote state, clock, the
persisted sync-log file, whether the fast path exited, and the full
effect trace. -/
structure PullResult where
  fs : FS
  remote : RemoteStore
  clock : Nat
  storedLog : Option SyncLog
  fastExit : Bool
  trace : List Eff
  deriving Repr, DecidableEq

/-- `SyncService._pull`, end to end: load the log, fetch the delta,
fast-exit when nothing changed and hygiene is not due, close the delta
over ancestors, materialize shallow-to-deep, reconcile deletions,
rebuild the sibling chain, and save the log (watermark = newest delta
edit time minus one second, else the previous watermark). -/
def pull (vr : FPath) (fuel : Nat) (r : RemoteStore) (clock : Nat) (fs : FS)
    (storedLog : Option SyncLog) : Except PullErr PullResult := do
  let fs0 := fs.mkdirParents (vr ++ [".sync"])
  let lastPull := match storedLog with | some l => l.lastPull | none => none
  let pagesLog0 := match storedLog with | some l => l.pages | none => []
  let prevLastPull := lastPull
  let delta := computeDelta r lastPull
  let hygiene := hygieneDue lastPull clock
  if delta.isEmpty && lastPull.isSome && ¬ hygiene then
    pure { fs := fs0, remote := r, clock := clock, storedLog := storedLog,
           fastExit := true, trace := [] }
  else
    let pageMap := buildPageMap r delta fuel
    let sorted ← match sortPagesByDepth pageMap fuel (pageMap.map (fun kv => kv.2)) with
      | some s => pure s
      | none => throw PullErr.dataErr
    let ctx0 : Ctx := ⟨r, clock, fs0, pagesLog0, []⟩
    let ctx1 ← sorted.foldlM (writePage vr pageMap fuel) ctx0
    let (fs2, log2, tr2) :=
      if ¬ delta.isEmpty || hygiene then
        let alive := ((getPages ctx1.remote).filter (fun p => ¬ p.archived)).map
          (fun p => p.id)
        deletionPass vr alive ctx1.fs ctx1.pagesLog
      else (ctx1.fs, ctx1.pagesLog, [])
    let r3 ← siblingPass vr pageMap ctx1.remote log2 fs2
    let newLastPull :=
      if ¬ delta.isEmpty then ((delta.map (fun p => p.lastEdited)).foldl Nat.max 0) - 1
      else match prevLastPull with | some t => t | none => clock
    let logOut : SyncLog := { lastPull := some newLastPull, pages := log2 }
    pure { fs := r3.1, remote := ctx1.remote, clock := ctx1.clock,
           storedLog := some logOut, fastExit := false,
           trace := ctx1.trace ++ tr2 ++ r3.2 ++ [Eff.writeLog (logPathOf vr)] }

-- ────────────────────────────────────────────────────────────────────
-- push path (obsidian_io.py, sync.py lines 493–576)
-- ────────────────────────────────────────────────────────────────────

def isWordChar (c : Char) : Bool := c.isAlphanum || c = '_'

def isHexLower (c : Char) : Bool := c.isDigit || ('a' ≤ c && c ≤ 'f')

/-- Match the tail of `_NOTION_URL_PATTERN`
(`[\w-]+-(?P<id>[0-9a-f]{32})`) at a position just after the literal
`https://www.notion.so/`: inside the maximal `[\w-]` run, greedy
backtracking picks the rightmost dash followed by 32 lowercase-hex
characters. -/
def notionIdAt (cs : List Char) : Option String :=
  let run := cs.takeWhile (fun c => isWordChar c || c = '-')
  match ((List.range run.length).reverse).find? (fun j =>
      1 ≤ j && run.get? j = some '-' && j + 33 ≤ run.length &&
        ((run.drop (j + 1)).take 32).all isHexLower) with
  | some j => some ((run.drop (j + 1)).take 32).asString
  | none => none

def extractGo : List Char → Option String
  | [] => none
  | c :: rest =>
    if ("https://www.notion.so/".toList).isPrefixOf (c :: rest) then
      match notionIdAt ((c :: rest).drop ("https://www.notion.so/".toList).length) with
      | some found => some found
      | none => extractGo rest
    else extractGo rest

/-- `_NOTION_URL_PATTERN.search(url)` with the captured 32-hex id. -/
def extractNotionId (url : String) : Option String := extractGo url.toList

/-- `MdDoc.notion_id`: read the front-matter `notion_url` key (an empty
string is falsy, like Python `or`), falling back to `Notion URL`, and
extract the id from the URL.  No other front-matter key is consulted. -/
def docNotionId (front : List (String × String)) : Option String :=
  let u :=
    match lookupA front "notion_url" with
    | some s => if s = "" then lookupA front "Notion URL" else some s
    | none => lookupA front "Notion URL"
  match u with
  | some url => extractNotionId url
  | none => none

/-- `MdDoc.title`: first content line, `lstrip("# ")` then `strip()`. -/
def docTitle (content : String) : String :=
  let first := (splitLines content).headD ""
  let t := first.toList.dropWhile (fun c => c = '#' || c = ' ')
  (((t.dropWhile Char.isWhitespace).reverse.dropWhile Char.isWhitespace).reverse).asString

/-- Python `str.splitlines()` composed with `"\n".join`: a trailing
newline is dropped. -/
def pySplitlines (s : String) : List String :=
  if s = "" then []
  else
    let ls := splitLines s
    if ls.getLast? = some "" then ls.dropLast else ls

/-- The Notion property name `notion_prop("last_synced", back_map)`
resolves to from the configured back-mapping. -/
def lastSyncedProp : String := "Last Synced"

/-- `ObsidianWriter.update_doc` front-matter effect: set the last-synced
property and stamp `notion_id` (the comment in the source reads "use ID
for sync, not URL").  The `notion_url` / `Notion URL` keys are not
written. -/
def updateDocFront (front : List (String × String)) (clock : Nat)
    (notionId : String) : List (String × String) :=
  setA (setA front lastSyncedProp (toString clock)) "notion_id" notionId

/-- `ObsidianWriter.update_doc` body effect: inject a markdown link right
after the H1 unless an `[Open in Notion]` line is already present. -/
def updateDocBody (content titleStr url : String) : String :=
  if ¬ containsSub content "[Open in Notion]" then
    match pySplitlines content with
    | [] => content
    | l0 :: rest =>
      if startsWithS l0 "#" then
        let linkText := if titleStr = "" then "\"Open in Notion\"" else titleStr
        joinLines (l0 :: ("[" ++ linkText ++ "](" ++ url ++ ")") :: rest)
      else content
  else content

/-- A scanned markdown document (`MdDoc`): path, front matter, body and
content fingerprint (md5 of the body, modelled as the body itself). -/
structure MdDoc where
  path : FPath
  front : List (String × String)
  content : String
  hash : String
  deriving Repr, DecidableEq

def ignoreDirs : List String := [".git", ".scripts", ".obsidian", ".sync"]

/-- `ObsidianReader.scan`: every `*.md` under the root, skipping ignored
directories and `README.md`. -/
def scanVault (vr : FPath) (fs : FS) : List MdDoc :=
  fs.files.filterMap (fun f =>
    if strictlyUnder vr f.1 && endsWithS (f.1.getLastD "") ".md" &&
        ¬ f.1.any (fun part => ignoreDirs.any (fun d => d = part)) &&
        f.1.getLastD "" ≠ "README.md" then
      match f.2 with
      | FileData.mdF fm body => some ⟨f.1, fm, body, body⟩
      | FileData.canvasF _ => none
    else none)

/-- The upward walk of `_find_parent_page_id`; the path strictly
shortens, so `fuel = length` completes the loop. -/
def findParentGo (cache : List (String × String)) :
    Nat → FPath → Option String
  | 0, _ => none
  | _ + 1, [] => none
  | fuel + 1, d =>
    let hub := d ++ [d.getLastD "" ++ ".md"]
    match lookupA cache (joinPath hub) with
    | some found => some found
    | none => findParentGo cache fuel d.dropLast

/-- `SyncService._find_parent_page_id`: walk the directory chain upward
looking for the nearest hub document already cached with a remote id. -/
def findParentPageId (docPath : FPath) (cache : List (String × String)) :
    Option String :=
  findParentGo cache docPath.length docPath.dropLast

/-- Outcome of one `_push` run. -/
structure PushResult where
  fs : FS
  remote : RemoteStore
  clock : Nat
  fresh : Nat
  createdIds : List String
  trace : List Eff
  deriving Repr, DecidableEq

/-- One loop iteration of `_push` (lines 514–564): skip documents whose
`notion_id` property resolves, otherwise create the remote record (the
store assigns a fresh id), patch its path property, stamp the local
document via `update_doc`, cache the mapping and mark sync complete. -/
def pushStep
    (acc : Except PullErr (FS × RemoteStore × Nat × Nat × List String ×
      List (String × String) × List Eff)) (doc : MdDoc) :
    Except PullErr (FS × RemoteStore × Nat × Nat × List String ×
      List (String × String) × List Eff) := do
  let (fs, r, clock, fresh, created, cache, tr) ← acc
  match docNotionId doc.front with
  | some nid => pure (fs, r, clock, fresh, created, setA cache (joinPath doc.path) nid, tr)
  | none =>
    let parentId := findParentPageId doc.path cache
    let newId := "new-" ++ toString fresh
    let newPage : Page :=
      { id := newId, titleProp := some (docTitle doc.content),
        parent := parentId, lastEdited := clock, archived := false,
        canvas := false }
    let r1 : RemoteStore := { r with pages := r.pages ++ [newPage] }
    -- `update_page(created["id"], path prop)`
    let r2 ← match updatePage r1 (clock + 1) newId with
      | some x => pure x
      | none => throw (PullErr.transientErr newId)
    -- `writer.update_doc(doc, …)`
    let url := notionUrlOf newId
    let front2 := updateDocFront doc.front clock newId
    let body2 := updateDocBody doc.content (docTitle doc.content) url
    let fs2 := fs.writeFile doc.path (FileData.mdF front2 body2)
    -- `mark_sync_complete`
    let r3 ← match updatePage r2 (clock + 2) newId with
      | some x => pure x
      | none => throw (PullErr.transientErr newId)
    pure (fs2, r3, clock + 3, fresh + 1, created ++ [newId],
      setA cache (joinPath doc.path) newId,
      tr ++ [Eff.patch newId, Eff.fsWrite doc.path, Eff.patch newId])

/-- `SyncService._push`: ensure top-level hub documents exist, scan the
vault (root-level files dropped), order shallow-to-deep, and run the
create-and-stamp loop. -/
def pushRun (vr : FPath) (fs : FS) (r : RemoteStore) (clock fresh : Nat) :
    Except PullErr PushResult := do
  -- hub-document backfill (lines 494–498)
  let hubStep := fun (acc : FS × List Eff) (d : FPath) =>
    if d.length = vr.length + 1 && d.take vr.length = vr then
      let hub := d ++ [d.getLastD "" ++ ".md"]
      if ¬ acc.1.fileExists hub then
        (acc.1.writeFile hub (FileData.mdF [] ("# " ++ d.getLastD "" ++ "\n")),
          acc.2 ++ [Eff.fsWrite hub])
      else acc
    else acc
  let (fs1, tr1) := fs.dirs.foldl hubStep (fs, [])
  let docs := (scanVault vr fs1).filter (fun d => d.path.dropLast ≠ vr)
  if docs.isEmpty then
    pure { fs := fs1, remote := r, clock := clock, fresh := fresh,
           createdIds := [], trace := tr1 }
  else
    let ordered := sortStable
      (fun a b => decide (a.path.length ≤ b.path.length)) docs
    let res ← ordered.foldl pushStep
      (Except.ok (fs1, r, clock, fresh, [], [], tr1))
    pure { fs := res.1, remote := res.2.1, clock := res.2.2.1,
           fresh := res.2.2.2.1, createdIds := res.2.2.2.2.1,
           trace := res.2.2.2.2.2.2 }

-- ────────────────────────────────────────────────────────────────────
-- effect classifiers and specification-side predicates
-- ────────────────────────────────────────────────────────────────────

def Eff.isMoveDirEff : Eff → Bool
  | Eff.fsMoveDir _ _ => true
  | _ => false

def Eff.isMoveFileEff : Eff → Bool
  | Eff.fsMoveFile _ _ => true
  | _ => false

def Eff.isWriteLogEff : Eff → Bool
  | Eff.writeLog _ => true
  | _ => false

def Eff.isPatchEff : Eff → Bool
  | Eff.patch _ => true
  | _ => false

/-- Effects emitted by the body of a pull run (everything except the
final log save): in particular never a rename and never a log write. -/
def bodyEff (e : Eff) : Prop :=
  Eff.isRenameEff e = false ∧ Eff.isWriteLogEff e = false

/-- The remote store has no two pages with the same id (the remote
store owns identity; Notion ids are unique). -/
def idsNodup (r : RemoteStore) : Prop :=
  (r.pages.map (fun p => p.id)).Nodup

/-- A page map every entry of which agrees with the remote store
(`buildPageMap` only ever stores pages obtained from the store). -/
def mapConsistent (r : RemoteStore) (m : List (String × Page)) : Prop :=
  ∀ kv ∈ m, getPage r kv.1 = some kv.2

/-- Whether the file at `p` is a markdown document. -/
def FS.isMdFile (fs : FS) (p : FPath) : Bool :=
  match fs.getFile p with
  | some (FileData.mdF _ _) => true
  | _ => false

/-- The log, filesystem and remote agree for every remote page: the
entry exists, parent and timestamp match, the logged path is the one the
ancestor walk recomputes, and the document is on disk as markdown.  This
is the state a completed pull leaves behind when no remote edit happens
afterwards. -/
def coherentChk (vr : FPath) (fuel : Nat) (r : RemoteStore) (fs : FS)
    (log : List (String × LogEntry)) : Bool :=
  r.pages.all (fun p =>
    match lookupA log p.id with
    | some e =>
      decide (e.parentId = p.parent) && decide (e.lastEdited = p.lastEdited) &&
        decide (buildMdPath [] r fuel p = some e.path) &&
        fs.isMdFile (vr ++ e.path)
    | none => false)

/-- Every logged id names a live (non-archived) remote page. -/
def logAllAliveChk (r : RemoteStore) (log : List (String × LogEntry)) : Bool :=
  log.all (fun kv => r.pages.any (fun p => !p.archived && p.id = kv.1))

/-- No page of the remote store is archived. -/
def noArchivedChk (r : RemoteStore) : Bool :=
  r.pages.all (fun p => !p.archived)

-- ────────────────────────────────────────────────────────────────────
-- concrete scenarios
-- ────────────────────────────────────────────────────────────────────

def vaultRoot : FPath := ["vault"]

/-- A single root page, last edited at time 100. -/
def alphaPage : Page :=
  { id := "p1", titleProp := some "alpha", parent := none,
    lastEdited := 100, archived := false, canvas := false }

def remoteOne : RemoteStore := { pages := [alphaPage], failPatch := [] }

/-- A fresh vault: the root directory exists, nothing else. -/
def fsVault0 : FS := { files := [], dirs := [["vault"]] }

/-- Two pulls back to back, the remote untouched in between; the pair of
(file-write count, patch count) of the second run. -/
def secondRunCounts : Option (Nat × Nat) :=
  match pull vaultRoot 10 remoteOne 200 fsVault0 none with
  | Except.ok r1 =>
    match pull vaultRoot 10 r1.remote 300 r1.fs r1.storedLog with
    | Except.ok r2 => some (countFsWrites r2.trace, countPatches r2.trace)
    | Except.error _ => none
  | Except.error _ => none

/-- The first run's commit shape: its log-write effects, and whether the
whole trace is rename-free. -/
def firstRunCommitShape : Option (List Eff × Bool) :=
  match pull vaultRoot 10 remoteOne 200 fsVault0 none with
  | Except.ok r1 =>
    some (r1.trace.filter Eff.isWriteLogEff,
      r1.trace.all (fun e => ¬ Eff.isRenameEff e))
  | Except.error _ => none

/-- C2 scenario: a vault with one hand-written document `a/a.md`
containing `# A` and no front matter. -/
def pushFs0 : FS :=
  { files := [(["vault", "a", "a.md"], FileData.mdF [] "# A")],
    dirs := [["vault"], ["vault", "a"]] }

def pushRemote0 : RemoteStore := { pages := [], failPatch := [] }

/-- Two push runs back to back: how many records each run creates, and
whether the stamp the first run wrote is recognized by the
`notion_id` property when the document is re-read. -/
def doublePushOutcome : Option (Nat × Nat × Bool × Option String) :=
  match pushRun vaultRoot pushFs0 pushRemote0 100 0 with
  | Except.ok r1 =>
    match pushRun vaultRoot r1.fs r1.remote r1.clock r1.fresh with
    | Except.ok r2 =>
      match r1.fs.getFile ["vault", "a", "a.md"] with
      | some (FileData.mdF fm _) =>
        some (r1.createdIds.length, r2.createdIds.length,
          (lookupA fm "notion_id").isSome, docNotionId fm)
      | _ => none
    | Except.error _ => none
  | Except.error _ => none

/-- C3 scenario: one live page edited at time 5, absent from the log,
watermark 10. -/
def stalePage : Page :=
  { id := "x1", titleProp := some "x", parent := none,
    lastEdited := 5, archived := false, canvas := false }

def remoteStale : RemoteStore := { pages := [stalePage], failPatch := [] }

/-- C5 scenario: a three-level chain A → B → C. -/
def pageA5 : Page :=
  { id := "ia", titleProp := some "A", parent := none,
    lastEdited := 1, archived := false, canvas := false }

def pageB5 : Page :=
  { id := "ib", titleProp := some "B", parent := some "ia",
    lastEdited := 2, archived := false, canvas := false }

def pageC5 : Page :=
  { id := "ic", titleProp := some "C", parent := some "ib",
    lastEdited := 3, archived := false, canvas := false }

def remoteChain : RemoteStore :=
  { pages := [pageA5, pageB5, pageC5], failPatch := [] }

def chainMap : List (String × Page) :=
  [("ia", pageA5), ("ib", pageB5), ("ic", pageC5)]

/-- C6 scenario: page `n1` renamed remotely from `old` to `new`; on disk
its directory holds only the node's own document. -/
def renamedPage : Page :=
  { id := "n1", titleProp := some "new", parent := none,
    lastEdited := 5, archived := false, canvas := false }

def renameFs : FS :=
  { files := [(["vault", "old", "old.md"], FileData.mdF [] "x")],
    dirs := [["vault"], ["vault", "old"]] }

def renameEntry : LogEntry :=
  { parentId := none, lastEdited := 3, path := ["old", "old.md"], hash := "h" }

def renameCtx : Ctx :=
  { remote := { pages := [renamedPage], failPatch := [] }, clock := 10,
    fs := renameFs, pagesLog := [("n1", renameEntry)], trace := [] }

/-- The move effects `write_page` performs in the C6 scenario. -/
def renameMoveShape : Option (Bool × Bool) :=
  (writePage ["vault"] [("n1", renamedPage)] 10 renameCtx renamedPage).toOption.map
    (fun c => (c.trace.any Eff.isMoveDirEff, c.trace.any Eff.isMoveFileEff))

/-- C8 scenario: two root pages; patching the first-materialized one
(`ida`, processed second by the queue order) fails transiently. -/
def failPageA : Page :=
  { id := "ida", titleProp := some "a", parent := none,
    lastEdited := 10, archived := false, canvas := false }

def failPageB : Page :=
  { id := "idb", titleProp := some "b", parent := none,
    lastEdited := 20, archived := false, canvas := false }

def remoteFailing : RemoteStore :=
  { pages := [failPageA, failPageB], failPatch := ["ida"] }

/-- The page map the failing pull builds. -/
def failMap : List (String × Page) :=
  buildPageMap remoteFailing (computeDelta remoteFailing none) 10

/-- The materialization-loop state right before the failing scenario's
loop starts. -/
def failCtx0 : Ctx :=
  { remote := remoteFailing, clock := 100,
    fs := fsVault0.mkdirParents (vaultRoot ++ [".sync"]),
    pagesLog := [], trace := [] }

/-- The loop state after the first (successful) node of the failing
scenario. -/
def failCtx1 : Ctx :=
  match [failPageB].foldlM (writePage vaultRoot failMap 10) failCtx0 with
  | Except.ok c => c
  | Except.error _ => failCtx0

/-- C9 scenario: a two-page parent cycle in the page map. -/
def cycPageA : Page :=
  { id := "ca", titleProp := some "ta", parent := some "cb",
    lastEdited := 1, archived := false, canvas := false }

def cycPageB : Page :=
  { id := "cb", titleProp := some "tb", parent := some "ca",
    lastEdited := 2, archived := false, canvas := false }

def cycMap : List (String × Page) := [("ca", cycPageA), ("cb", cycPageB)]

def cycRemote : RemoteStore := { pages := [cycPageA, cycPageB], failPatch := [] }

/-- C10 scenario: watermark 150, clock 200 (fresh), nothing edited after
the watermark. -/
def freshLog : SyncLog := { lastPull := some 150, pages := [] }

def freshFs : FS := { files := [], dirs := [["vault"], ["vault", ".sync"]] }

/-- C7 scenario: a vault holding one logged document and its canvas
side-artifact; the logged remote id is dead (not in the live set). -/
def delFs : FS :=
  { files := [(["vault", "a", "a.md"], FileData.mdF [] "x"),
      (["vault", "a", "a.canvas"], FileData.canvasF "a")],
    dirs := [["vault"], ["vault", ".sync"], ["vault", "a"]] }

def delEntry : LogEntry :=
  { parentId := none, lastEdited := 1, path := ["a", "a.md"], hash := "h" }

def delLog : List (String × LogEntry) := [("gone", delEntry)]

/-- C1 scenario: the state a completed pull of `remoteOne` leaves
behind — the document on disk and a log entry agreeing with the remote
(the watermark sits one second before the newest edit). -/
def cohEntry : LogEntry :=
  { parentId := none, lastEdited := 100, path := ["alpha", "alpha.md"],
    hash := "h" }

def cohFs : FS :=
  { files := [(["vault", "alpha", "alpha.md"], FileData.mdF [] "hello")],
    dirs := [["vault"], ["vault", ".sync"], ["vault", "alpha"]] }

def cohLog : SyncLog := { lastPull := some 99, pages := [("p1", cohEntry)] }

/-- A file path targeted by the deletion pass: some snapshot entry is
dead (its id is not alive) and logs exactly this path. -/
def deadLoggedPath (vr : FPath) (alive : List String)
    (log : List (String × LogEntry)) (f : FPath) : Bool :=
  log.any (fun kv => ¬ alive.any (fun a => a = kv.1) && vr ++ kv.2.path = f)

-- ────────────────────────────────────────────────────────────────────
-- theorems
-- ────────────────────────────────────────────────────────────────────

/-- Helper for C9: in the two-page parent cycle, the `_depth` walk never
finishes, whatever the fuel. -/
theorem depthGoCycNone :
    ∀ fuel d, depthGo cycMap fuel (some cycPageA) d = none ∧
      depthGo cycMap fuel (some cycPageB) d = none := by
  intro fuel
  induction fuel with
  | zero => intro d; exact ⟨rfl, rfl⟩
  | succ n ih =>
    intro d
    constructor
    · have h1 : depthGo cycMap (n + 1) (some cycPageA) d =
          depthGo cycMap n (some cycPageB) (d + 1) := rfl
      rw [h1]
      exact (ih (d + 1)).2
    · have h2 : depthGo cycMap (n + 1) (some cycPageB) d =
          depthGo cycMap n (some cycPageA) (d + 1) := rfl
      rw [h2]
      exact (ih (d + 1)).1

/-- Helper for C9: the ancestor-title walk of `write_page` likewise
never finishes on the cycle. -/
theorem buildPartsGoCycNone :
    ∀ fuel acc, buildPartsGo cycMap cycRemote fuel cycPageA acc = none ∧
      buildPartsGo cycMap cycRemote fuel cycPageB acc = none := by
  intro fuel
  induction fuel with
  | zero => intro acc; exact ⟨rfl, rfl⟩
  | succ n ih =>
    intro acc
    constructor
    · have h1 : buildPartsGo cycMap cycRemote (n + 1) cycPageA acc =
          buildPartsGo cycMap cycRemote n cycPageB (titleOf cycPageB :: acc) := rfl
      rw [h1]
      exact (ih (titleOf cycPageB :: acc)).2
    · have h2 : buildPartsGo cycMap cycRemote (n + 1) cycPageB acc =
          buildPartsGo cycMap cycRemote n cycPageA (titleOf cycPageA :: acc) := rfl
      rw [h2]
      exact (ih (titleOf cycPageA :: acc)).1

/-- C9 (counterexample): the claim says every ancestor-chain walk is
defensively bounded and terminates on every input.  On a two-page parent
cycle the `_depth` walk of `_pull` has not terminated after 100
iterations (fuel models the unbounded `while` loop), though the page map
has only two entries — the walk is unbounded and never finishes. -/
theorem ancestorWalkCycleCounterexample :
    depthOf cycMap 100 cycPageA = none ∧
      buildParts cycMap cycRemote 100 cycPageA = none := by
  exact ⟨(depthGoCycNone 100 0).1, (buildPartsGoCycNone 100 [titleOf cycPageA]).1⟩

/-- C9 (amended): the ancestor-chain walks of `_pull` (`_depth` and the
path-construction walk of `write_page`) are not defensively bounded: on
a cyclic parent relation they fail to terminate for every amount of
fuel, rather than treating the cycle as a fatal per-node data error. -/
theorem ancestorWalkUnboundedOnCycle :
    ∀ fuel, depthOf cycMap fuel cycPageA = none ∧
      buildParts cycMap cycRemote fuel cycPageA = none := by
  intro fuel
  exact ⟨(depthGoCycNone fuel 0).1, (buildPartsGoCycNone fuel [titleOf cycPageA]).1⟩

/-- C3 (counterexample): the claim says the delta set with a watermark is
the set of nodes modified after the watermark unioned with every remote
node absent from the log.  For a live node last edited at 5, absent from
the log, with watermark 10, the code's delta is empty while the
spec-worded delta contains the node. -/
theorem deltaNoUnionCounterexample :
    computeDelta remoteStale (some 10) = [] ∧
      deltaSpec remoteStale [] 10 = [stalePage] ∧
      computeDelta remoteStale (some 10) ≠ deltaSpec remoteStale [] 10 := by
  decide

/-- C3 (amended): with a watermark, the delta computed by `_pull` is
exactly the set of live remote nodes modified strictly after the
watermark; membership does not depend on the sync log, so nodes missing
from the log but not recently modified are not included. -/
theorem deltaIsExactlyModifiedAfter (r : RemoteStore) (t : Nat) (p : Page) :
    p ∈ computeDelta r (some t) ↔ p ∈ getPages r ∧ t < p.lastEdited := by
  simp [computeDelta, getPagesAfter, List.mem_filter]

/-- C5 (counterexample): for the chain with ancestor titles [A, B] and
own title C, the claim says the computed local path duplicates every
segment (`A/A/B/B/C/C.md`); the code computes `A/B/C/C.md` — only the
node's own segment is duplicated (directory plus file). -/
theorem canonicalPathCounterexample :
    buildMdPath chainMap remoteChain 10 pageC5 = some ["A", "B", "C", "C.md"] ∧
      buildMdPath chainMap remoteChain 10 pageC5 ≠
        some ["A", "A", "B", "B", "C", "C.md"] := by
  decide

/-- C5 (amended): for any node C with parent B and grandparent root A
(resolvable through any page map backed by the remote store), the
computed path is ancestor titles once each, then the node's title as its
directory, then `<title>.md` — independent of everything else in the map
or store, hence of traversal order. -/
theorem canonicalPathShape (m : List (String × Page)) (r : RemoteStore)
    (f : Nat) (pA pB pC : Page)
    (hC : pC.parent = some pB.id) (hB : pB.parent = some pA.id)
    (hA : pA.parent = none)
    (lB : lookupOrFetch m r pB.id = some pB)
    (lA : lookupOrFetch m r pA.id = some pA) :
    buildMdPath m r (f + 3) pC =
      some [titleOf pA, titleOf pB, titleOf pC, titleOf pC ++ ".md"] := by
  have step1 : buildPartsGo m r (f + 3) pC [titleOf pC] =
      buildPartsGo m r (f + 2) pB [titleOf pB, titleOf pC] := by
    show buildPartsGo m r (f + 2 + 1) pC [titleOf pC] = _
    rw [buildPartsGo, hC]
    dsimp only
    rw [lB]
  have step2 : buildPartsGo m r (f + 2) pB [titleOf pB, titleOf pC] =
      buildPartsGo m r (f + 1) pA [titleOf pA, titleOf pB, titleOf pC] := by
    show buildPartsGo m r (f + 1 + 1) pB _ = _
    rw [buildPartsGo, hB]
    dsimp only
    rw [lA]
  have step3 : buildPartsGo m r (f + 1) pA [titleOf pA, titleOf pB, titleOf pC] =
      some [titleOf pA, titleOf pB, titleOf pC] := by
    show buildPartsGo m r (f + 1) pA _ = _
    rw [buildPartsGo, hA]
  simp [buildMdPath, buildParts, step1, step2, step3]

/-- C5 (witness): the amended path shape evaluated on the concrete
three-page chain. -/
theorem canonicalPathShapeWitness :
    pageC5.parent = some pageB5.id ∧
      buildMdPath chainMap remoteChain 13 pageC5 =
        some [titleOf pageA5, titleOf pageB5, titleOf pageC5, titleOf pageC5 ++ ".md"] :=
  ⟨rfl, canonicalPathShape chainMap remoteChain 10 pageA5 pageB5 pageC5
    rfl rfl rfl rfl rfl⟩

/-- C2 (code bug): the push path stamps the local document with
`notion_id` in its front matter, but `MdDoc.notion_id` — the property
the push loop checks to skip already-synced documents — only reads the
`notion_url` / `Notion URL` keys.  Pushing a one-document vault twice
therefore creates a remote record on BOTH runs (1 then 1 again), even
though the stamp is present after the first run and the claim (and the
source's own "idempotent on re-run" intent) requires the second run to
skip the document. -/
theorem pushStampNotRecognized : doublePushOutcome = some (1, 1, true, none) := by
  decide

/-- C8 (counterexample): the claim says a transient remote failure while
materializing one node aborts that node only and the run continues.  In
a two-root scenario where patching `ida` fails, the whole pull run
aborts with the transient error: the loop around `write_page` has no
handler, so nothing after the failing node runs and no log commit
happens (the Python leaves earlier nodes' files on disk but persists no
log). -/
theorem transientErrorAbortsRun :
    (match pull vaultRoot 10 remoteFailing 100 fsVault0 none with
      | Except.error (PullErr.transientErr s) => some s
      | _ => none) = some "ida" := by
  decide

/-- C6 (counterexample): the claim says a subtree move happens if and
only if the node's existing directory has other content besides the
node's own document.  Here the old directory `old/` holds exactly the
node's own `old.md` and nothing else, yet `write_page` performs the
whole-directory move (`has_children` counts the node's own file), not a
single-file move. -/
theorem subtreeMoveOnOwnDocOnly : renameMoveShape = some (true, false) := by
  decide

/-- C1 (counterexample): the claim says a second pull with no remote
changes performs zero filesystem writes and zero remote patches.  After
a completed first pull of a one-root-page remote, the second pull (the
remote untouched in between) performs exactly one vault file write (the
unconditional sibling-block rewrite of the root hub) plus the sync-log
save, though indeed zero patches — the watermark is set one second
before the newest edit, so the delta is non-empty and the fast exit is
not taken. -/
theorem secondPullWritesCounterexample : secondRunCounts = some (1, 0) := by
  decide

/-- C4 (counterexample): the claim says the sync-log commit writes to a
temporary location and renames (or equivalent).  The completed first
pull of the one-page scenario commits with exactly one direct
`write_text` to the final log path and performs no rename anywhere. -/
theorem commitIsDirectWriteCounterexample :
    firstRunCommitShape = some ([Eff.writeLog (logPathOf vaultRoot)], true) := by
  decide

/-- Helper: `mkdir(parents=True, exist_ok=True)` on a fully existing
chain changes nothing. -/
theorem mkdirParentsNoop (fs : FS) (p : FPath)
    (h : ∀ d ∈ properPrefixes p, fs.dirExists d = true) :
    fs.mkdirParents p = fs := by
  unfold FS.mkdirParents
  have hf : (properPrefixes p).filter (fun d => ¬ fs.dirExists d) = [] := by
    rw [List.filter_eq_nil_iff]
    intro a ha
    simp [h a ha]
  rw [hf, List.append_nil]

/-- C10: when the fast-path exit of pull is taken (a watermark exists,
the fetched delta is empty, and the watermark is under the 24-hour
staleness threshold), the run returns immediately and changes nothing:
the filesystem is untouched, the persisted sync log keeps its previous
value (watermark included), and the effect trace is empty — no file
write, no deletion, no remote patch, no log save. -/
theorem fastPathFrame (vr : FPath) (fuel : Nat) (r : RemoteStore)
    (clock : Nat) (fs : FS) (l : SyncLog) (t : Nat)
    (hlp : l.lastPull = some t)
    (hdelta : getPagesAfter r t = [])
    (hfresh : ¬ (t + hygieneThresholdSecs < clock))
    (hdirs : ∀ d ∈ properPrefixes (vr ++ [".sync"]), fs.dirExists d = true) :
    pull vr fuel r clock fs (some l) =
      Except.ok { fs := fs, remote := r, clock := clock,
                  storedLog := some l, fastExit := true, trace := [] } := by
  unfold pull
  rw [mkdirParentsNoop fs _ hdirs]
  simp [hlp, computeDelta, hdelta, hygieneDue, hfresh, pure, Except.pure]

/-- C10 (witness): the fast-path frame property at a concrete state —
watermark 150, one page last edited at 100, clock 200. -/
theorem fastPathFrameWitness :
    freshLog.lastPull = some 150 ∧
      getPagesAfter remoteOne 150 = [] ∧
      ¬ (150 + hygieneThresholdSecs < 200) ∧
      pull vaultRoot 10 remoteOne 200 freshFs (some freshLog) =
        Except.ok { fs := freshFs, remote := remoteOne, clock := 200,
                    storedLog := some freshLog, fastExit := true, trace := [] } :=
  ⟨rfl, by decide, by decide,
    fastPathFrame vaultRoot 10 remoteOne 200 freshFs freshLog 150 rfl
      (by decide) (by decide) (by decide)⟩

/-- C8 (amended): a node whose materialization raises aborts the whole
materialization loop right there — the remaining nodes are never
processed and the error propagates out of the loop (so the log save
after the loop never runs). -/
theorem writeLoopAbortsOnError (vr : FPath) (m : List (String × Page))
    (fuel : Nat) (l1 : List Page) (p : Page) (l2 : List Page)
    (ctx ctx1 : Ctx) (e : PullErr)
    (h1 : l1.foldlM (writePage vr m fuel) ctx = Except.ok ctx1)
    (h2 : writePage vr m fuel ctx1 p = Except.error e) :
    (l1 ++ p :: l2).foldlM (writePage vr m fuel) ctx = Except.error e := by
  induction l1 generalizing ctx with
  | nil =>
    rw [List.foldlM_nil] at h1
    have hc : ctx = ctx1 := by
      have := h1
      simp [pure, Except.pure] at this
      exact this
    subst hc
    rw [List.nil_append, List.foldlM_cons, h2]
    rfl
  | cons a l1 ih =>
    rw [List.foldlM_cons] at h1
    cases hwa : writePage vr m fuel ctx a with
    | error err =>
      rw [hwa] at h1
      exact absurd h1 (by simp [Bind.bind, Except.bind])
    | ok ctxNext =>
      rw [hwa] at h1
      have h1n : l1.foldlM (writePage vr m fuel) ctxNext = Except.ok ctx1 := by
        simpa [Bind.bind, Except.bind] using h1
      rw [List.cons_append, List.foldlM_cons, hwa]
      have : (l1 ++ p :: l2).foldlM (writePage vr m fuel) ctxNext =
          Except.error e := ih ctxNext h1n
      simpa [Bind.bind, Except.bind] using this

/-- C8 (witness): in the two-root failing scenario, the first node
succeeds, the second node's patch raises the transient error, and the
whole loop evaluates to that error. -/
theorem writeLoopAbortsWitness :
    [failPageB].foldlM (writePage vaultRoot failMap 10) failCtx0 =
        Except.ok failCtx1 ∧
      writePage vaultRoot failMap 10 failCtx1 failPageA =
        Except.error (PullErr.transientErr "ida") ∧
      [failPageB, failPageA].foldlM (writePage vaultRoot failMap 10) failCtx0 =
        Except.error (PullErr.transientErr "ida") :=
  ⟨rfl, rfl,
    writeLoopAbortsOnError vaultRoot failMap 10 [failPageB] failPageA []
      failCtx0 failCtx1 (PullErr.transientErr "ida") rfl rfl⟩

/-- Helper: the inbound-link rewrite only ever emits file writes. -/
theorem inboundTraceAllWrites (vr : FPath) (fs : FS) (o n : List String) :
    ∀ e ∈ (updateInboundLinks vr fs o n).2, ∃ p, e = Eff.fsWrite p := by
  unfold updateInboundLinks
  have aux : ∀ (oR nR oP nP : String) (L : List (FPath × FileData))
      (acc : FS × List Eff),
      (∀ e ∈ acc.2, ∃ p, e = Eff.fsWrite p) →
      ∀ e ∈ (L.foldl (inboundStep vr oR nR oP nP) acc).2, ∃ p, e = Eff.fsWrite p := by
    intro oR nR oP nP L
    induction L with
    | nil => intro acc h e he; exact h e he
    | cons f L ih =>
      intro acc h
      apply ih
      intro e he
      rcases f with ⟨fp, fd⟩
      cases fd with
      | mdF fm body =>
        simp only [inboundStep] at he
        split at he
        · split at he
          · rcases List.mem_append.mp he with hl | hr
            · exact h e hl
            · exact ⟨fp, (List.mem_singleton.mp hr)⟩
          · exact h e he
        · exact h e he
      | canvasF t => exact h e he
  intro e he
  exact aux _ _ _ _ fs.files (fs, []) (by intro x hx; simp at hx) e he

/-- Helper: the empty-directory purge only ever emits `rmdir`s. -/
theorem purgeTraceAllRmdirs :
    ∀ (fuel : Nat) (fs : FS) (start : FPath) (e : Eff),
      e ∈ (purgeEmptyDirsGo fuel fs start).2 → ∃ p, e = Eff.fsRmdir p := by
  intro fuel
  induction fuel with
  | zero => intro fs start e he; simp [purgeEmptyDirsGo] at he
  | succ n ih =>
    intro fs start e he
    cases start with
    | nil => simp [purgeEmptyDirsGo] at he
    | cons a t =>
      unfold purgeEmptyDirsGo at he
      dsimp only at he
      split at he
      · rcases List.mem_cons.mp he with rfl | hmem
        · exact ⟨a :: t, rfl⟩
        · exact ih _ _ e hmem
      · simp at he

/-- Helper: a trace of pure file writes contains no move effect. -/
theorem anyMoveFalseOfWrites (tr : List Eff)
    (h : ∀ e ∈ tr, ∃ p, e = Eff.fsWrite p) :
    tr.any Eff.isMoveDirEff = false ∧ tr.any Eff.isMoveFileEff = false := by
  constructor <;>
    (rw [List.any_eq_false]; intro e he; rcases h e he with ⟨p, rfl⟩;
      simp [Eff.isMoveDirEff, Eff.isMoveFileEff])

/-- Helper: a trace of pure `rmdir`s contains no move effect. -/
theorem anyMoveFalseOfRmdirs (tr : List Eff)
    (h : ∀ e ∈ tr, ∃ p, e = Eff.fsRmdir p) :
    tr.any Eff.isMoveDirEff = false ∧ tr.any Eff.isMoveFileEff = false := by
  constructor <;>
    (rw [List.any_eq_false]; intro e he; rcases h e he with ⟨p, rfl⟩;
      simp [Eff.isMoveDirEff, Eff.isMoveFileEff])

/-- Helper: `any` distributes over a conditional list. -/
theorem anyIte (c : Prop) [Decidable c] (l1 l2 : List Eff) (f : Eff → Bool) :
    (if c then l1 else l2).any f = if c then l1.any f else l2.any f := by
  by_cases h : c <;> simp [h]

theorem inboundAnyMoveDir (vr : FPath) (fs : FS) (o n : List String) :
    (updateInboundLinks vr fs o n).2.any Eff.isMoveDirEff = false :=
  (anyMoveFalseOfWrites _ (inboundTraceAllWrites vr fs o n)).1

theorem inboundAnyMoveFile (vr : FPath) (fs : FS) (o n : List String) :
    (updateInboundLinks vr fs o n).2.any Eff.isMoveFileEff = false :=
  (anyMoveFalseOfWrites _ (inboundTraceAllWrites vr fs o n)).2

theorem purgeAnyMoveDir (fuel : Nat) (fs : FS) (start : FPath) :
    (purgeEmptyDirsGo fuel fs start).2.any Eff.isMoveDirEff = false :=
  (anyMoveFalseOfRmdirs _ (purgeTraceAllRmdirs fuel fs start)).1

theorem purgeAnyMoveFile (fuel : Nat) (fs : FS) (start : FPath) :
    (purgeEmptyDirsGo fuel fs start).2.any Eff.isMoveFileEff = false :=
  (anyMoveFalseOfRmdirs _ (purgeTraceAllRmdirs fuel fs start)).2

/-- Helper: the folder-move branch emits the whole-directory move
exactly when old and new directories differ. -/
theorem folderMoveAnyMoveDir (vr : FPath) (ctx : Ctx) (m : LogEntry)
    (mdPath : List String) (h0 : ctx.trace = []) :
    (folderMoveCtx vr ctx m mdPath).trace.any Eff.isMoveDirEff =
      decide ((vr ++ m.path).dropLast ≠ (vr ++ mdPath).dropLast) := by
  by_cases hq : (vr ++ m.path).dropLast = (vr ++ mdPath).dropLast
  · simp [folderMoveCtx, hq, h0]
  · simp [folderMoveCtx, hq, h0, List.any_append, anyIte, Eff.isMoveDirEff]

/-- Helper: the folder-move branch never emits a single-file move. -/
theorem folderMoveAnyMoveFile (vr : FPath) (ctx : Ctx) (m : LogEntry)
    (mdPath : List String) (h0 : ctx.trace = []) :
    (folderMoveCtx vr ctx m mdPath).trace.any Eff.isMoveFileEff = false := by
  by_cases hq : (vr ++ m.path).dropLast = (vr ++ mdPath).dropLast
  · simp [folderMoveCtx, hq, h0]
  · simp [folderMoveCtx, hq, h0, List.any_append, anyIte, Eff.isMoveFileEff]

theorem purgePairAnyMoveDir (fs : FS) (start : FPath) :
    (purgeEmptyDirs fs start).2.any Eff.isMoveDirEff = false := by
  unfold purgeEmptyDirs; exact purgeAnyMoveDir _ _ _

theorem purgePairAnyMoveFile (fs : FS) (start : FPath) :
    (purgeEmptyDirs fs start).2.any Eff.isMoveFileEff = false := by
  unfold purgeEmptyDirs; exact purgeAnyMoveFile _ _ _

/-- Helper: the single-file branch emits the file move exactly when the
old document exists (the directory-creation before it does not change
files) and source and destination differ. -/
theorem singleMoveAnyMoveFile (vr : FPath) (ctx : Ctx) (m : LogEntry)
    (mdPath : List String) (h0 : ctx.trace = []) :
    (singleMoveCtx vr ctx m mdPath).trace.any Eff.isMoveFileEff =
      (ctx.fs.fileExists (vr ++ m.path) &&
        decide (vr ++ m.path ≠ vr ++ mdPath)) := by
  have hfe : (ctx.fs.mkdirParents (vr ++ mdPath).dropLast).fileExists (vr ++ m.path) =
      ctx.fs.fileExists (vr ++ m.path) := rfl
  cases hf : ctx.fs.fileExists (vr ++ m.path) with
  | false => simp [singleMoveCtx, hfe, hf, h0, List.any_append, anyIte,
      Eff.isMoveFileEff]
  | true =>
    by_cases hne : vr ++ m.path = vr ++ mdPath
    · simp [singleMoveCtx, hfe, hf, hne, h0]
    · simp [singleMoveCtx, hfe, hf, hne, h0, List.any_append, anyIte,
        Eff.isMoveFileEff, purgePairAnyMoveFile]

/-- Helper: the single-file branch never emits a whole-directory move. -/
theorem singleMoveAnyMoveDir (vr : FPath) (ctx : Ctx) (m : LogEntry)
    (mdPath : List String) (h0 : ctx.trace = []) :
    (singleMoveCtx vr ctx m mdPath).trace.any Eff.isMoveDirEff = false := by
  have hfe : (ctx.fs.mkdirParents (vr ++ mdPath).dropLast).fileExists (vr ++ m.path) =
      ctx.fs.fileExists (vr ++ m.path) := rfl
  cases hf : ctx.fs.fileExists (vr ++ m.path) with
  | false => simp [singleMoveCtx, hfe, hf, h0]
  | true =>
    by_cases hne : vr ++ m.path = vr ++ mdPath
    · simp [singleMoveCtx, hfe, hf, hne, h0]
    · simp [singleMoveCtx, hfe, hf, hne, h0, List.any_append, anyIte,
        Eff.isMoveDirEff, purgePairAnyMoveDir]

/-- C6 (amended): when `write_page` detects a changed path or parent, it
performs the whole-directory (subtree) move exactly when the node's old
parent directory exists and has any content at all — including when
that content is only the node's own document — and performs the
single-file relocation exactly when that directory is missing or empty
yet the old file exists (which cannot happen together, so the
single-file relocation in fact always fails and is swallowed).
In the subtree case, every logged entry under the old directory prefix
is rebased onto the new prefix. -/
theorem moveKindMatchesDirOccupancy (vr : FPath) (ctx : Ctx) (m : LogEntry)
    (mdPath : List String) (h0 : ctx.trace = []) :
    ((moveStep vr ctx m mdPath).trace.any Eff.isMoveDirEff =
      (ctx.fs.dirExists (vr ++ m.path).dropLast &&
        ctx.fs.dirNonempty (vr ++ m.path).dropLast &&
        decide ((vr ++ m.path).dropLast ≠ (vr ++ mdPath).dropLast))) ∧
    ((moveStep vr ctx m mdPath).trace.any Eff.isMoveFileEff =
      (!(ctx.fs.dirExists (vr ++ m.path).dropLast &&
          ctx.fs.dirNonempty (vr ++ m.path).dropLast) &&
        ctx.fs.fileExists (vr ++ m.path) &&
        decide (vr ++ m.path ≠ vr ++ mdPath))) ∧
    (∀ kv ∈ ctx.pagesLog,
      ctx.fs.dirExists (vr ++ m.path).dropLast = true →
      ctx.fs.dirNonempty (vr ++ m.path).dropLast = true →
      (vr ++ m.path).dropLast ≠ (vr ++ mdPath).dropLast →
      strictlyUnder m.path.dropLast kv.2.path = true →
      (kv.1, { kv.2 with
        path := mdPath.dropLast ++ kv.2.path.drop m.path.dropLast.length }) ∈
          (moveStep vr ctx m mdPath).pagesLog) := by
  refine ⟨?_, ?_, ?_⟩
  · cases hd : ctx.fs.dirExists (vr ++ m.path).dropLast <;>
      cases hn : ctx.fs.dirNonempty (vr ++ m.path).dropLast <;>
      · simp [moveStep, hd, hn, List.any_append, inboundAnyMoveDir,
          folderMoveAnyMoveDir vr ctx m mdPath h0,
          singleMoveAnyMoveDir vr ctx m mdPath h0]
  · cases hd : ctx.fs.dirExists (vr ++ m.path).dropLast <;>
      cases hn : ctx.fs.dirNonempty (vr ++ m.path).dropLast <;>
      · simp [moveStep, hd, hn, List.any_append, inboundAnyMoveFile,
          folderMoveAnyMoveFile vr ctx m mdPath h0,
          singleMoveAnyMoveFile vr ctx m mdPath h0]
  · intro kv hkv h1 h2 h3 h4
    have hlog : (moveStep vr ctx m mdPath).pagesLog =
        (folderMoveCtx vr ctx m mdPath).pagesLog := by
      simp [moveStep, h1, h2]
    rw [hlog]
    have hmem : (kv.1, { kv.2 with
        path := mdPath.dropLast ++ kv.2.path.drop m.path.dropLast.length }) ∈
        ctx.pagesLog.map (fun kv2 =>
          if strictlyUnder m.path.dropLast kv2.2.path then
            (kv2.1, { kv2.2 with
              path := mdPath.dropLast ++ kv2.2.path.drop m.path.dropLast.length })
          else kv2) := by
      refine List.mem_map.mpr ⟨kv, hkv, ?_⟩
      simp [h4]
    simpa [folderMoveCtx, h3] using hmem

/-- Helper: the purge removes directories only — files are untouched. -/
theorem purgeFilesUnchanged :
    ∀ (fuel : Nat) (fs : FS) (start : FPath),
      (purgeEmptyDirsGo fuel fs start).1.files = fs.files := by
  intro fuel
  induction fuel with
  | zero => intro fs start; rfl
  | succ n ih =>
    intro fs start
    cases start with
    | nil => rfl
    | cons a t =>
      unfold purgeEmptyDirsGo
      dsimp only
      split
      · rw [ih]; rfl
      · rfl

/-- Helper: a directory that is no `take`-prefix of the purge start is
never removed by the purge. -/
theorem purgeKeepsOtherDirs :
    ∀ (fuel : Nat) (fs : FS) (start : FPath) (d : FPath),
      d ∈ fs.dirs → (∀ j, d ≠ start.take j) →
      d ∈ (purgeEmptyDirsGo fuel fs start).1.dirs := by
  intro fuel
  induction fuel with
  | zero => intro fs start d hd _; exact hd
  | succ n ih =>
    intro fs start d hd hj
    cases start with
    | nil => exact hd
    | cons a t =>
      unfold purgeEmptyDirsGo
      dsimp only
      split
      · apply ih
        · show d ∈ (fs.rmdir (a :: t)).dirs
          unfold FS.rmdir
          simp only [List.mem_filter]
          refine ⟨hd, ?_⟩
          have : d ≠ a :: t := by
            have := hj (a :: t).length
            simpa using this
          simp [this]
        · intro j
          have h1 : (a :: t).dropLast.take j = (a :: t).take (min j t.length) := by
            rw [List.dropLast_eq_take]
            rw [List.take_take]
            simp
          rw [h1]
          exact hj (min j t.length)
      · exact hd

/-- Helper: a directory with a strict subdirectory present is
non-empty. -/
theorem dirNonemptyOfSubdir (fs : FS) (p d2 : FPath) (h : d2 ∈ fs.dirs)
    (hu : strictlyUnder p d2 = true) : fs.dirNonempty p = true := by
  unfold FS.dirNonempty
  rw [Bool.or_eq_true]
  right
  rw [List.any_eq_true]
  exact ⟨d2, h, hu⟩

/-- Helper: a path is strictly under its own parent extension. -/
theorem strictlyUnderAppendSingleton (p : FPath) (x : String) :
    strictlyUnder p (p ++ [x]) = true := by
  unfold strictlyUnder
  simp [List.take_left]

/-- Helper: the purge never removes the vault root while the `.sync`
directory (created at the start of every pull) lives inside it, nor the
`.sync` directory itself as long as the purge start does not lie in it. -/
theorem purgeKeepsRootAndSync (vr : FPath) :
    ∀ (fuel : Nat) (fs : FS) (start : FPath),
      vr ∈ fs.dirs → (vr ++ [".sync"]) ∈ fs.dirs →
      (∀ j, (vr ++ [".sync"]) ≠ start.take j) →
      vr ∈ (purgeEmptyDirsGo fuel fs start).1.dirs ∧
        (vr ++ [".sync"]) ∈ (purgeEmptyDirsGo fuel fs start).1.dirs := by
  intro fuel
  induction fuel with
  | zero => intro fs start h1 h2 _; exact ⟨h1, h2⟩
  | succ n ih =>
    intro fs start h1 h2 hj
    cases start with
    | nil => exact ⟨h1, h2⟩
    | cons a t =>
      unfold purgeEmptyDirsGo
      dsimp only
      split
      case isTrue hcond =>
        by_cases hvr : (a :: t) = vr
        · exfalso
          have hne : fs.dirNonempty (a :: t) = true := by
            rw [hvr]
            exact dirNonemptyOfSubdir fs vr (vr ++ [".sync"]) h2
              (strictlyUnderAppendSingleton vr ".sync")
          simp [hne] at hcond
        · have hsync : (vr ++ [".sync"]) ≠ (a :: t) := by
            have := hj (a :: t).length
            simpa using this
          apply ih
          · unfold FS.rmdir
            simp only [List.mem_filter]
            refine ⟨h1, ?_⟩
            have : ¬ vr = a :: t := fun h => hvr h.symm
            simp [this]
          · unfold FS.rmdir
            simp only [List.mem_filter]
            refine ⟨h2, ?_⟩
            simp [hsync]
          · intro j
            have h1t : (a :: t).dropLast.take j = (a :: t).take (min j t.length) := by
              rw [List.dropLast_eq_take, List.take_take]
              simp
            rw [h1t]
            exact hj (min j t.length)
      case isFalse => exact ⟨h1, h2⟩

/-- Helper: a string cannot end in both `.md` and `.canvas`. -/
theorem mdNotCanvas (s : String) :
    endsWithS s ".md" = true → endsWithS s ".canvas" = true → False := by
  unfold endsWithS
  intro h1 h2
  rw [show ".md".toList.reverse = ['d', 'm', '.'] from rfl] at h1
  rw [show ".canvas".toList.reverse = ['s', 'a', 'v', 'n', 'a', 'c', '.'] from rfl] at h2
  cases hl : s.toList.reverse with
  | nil => rw [hl] at h1; simp [List.isPrefixOf] at h1
  | cons c rest =>
    rw [hl] at h1 h2
    simp [List.isPrefixOf] at h1 h2
    rw [← h1.1] at h2
    exact absurd h2.1 (by decide)

/-- Helper: the empty string does not end in `.md`. -/
theorem emptyNotMd : endsWithS "" ".md" = false := by decide

theorem purgePairFilesUnchanged (fs : FS) (start : FPath) :
    (purgeEmptyDirs fs start).1.files = fs.files := by
  unfold purgeEmptyDirs; exact purgeFilesUnchanged _ _ _

/-- Helper: one deletion-loop iteration leaves the filesystem's files
filtered by the entry's own dead path (a no-op for a live entry). -/
theorem deletionStepFiles (vr : FPath) (alive : List String)
    (acc : FS × List (String × LogEntry) × List Eff) (kv : String × LogEntry) :
    (deletionStep vr alive acc kv).1.files =
      if alive.any (fun a => a = kv.1) then acc.1.files
      else acc.1.files.filter (fun f => f.1 ≠ vr ++ kv.2.path) := by
  unfold deletionStep
  by_cases ha : alive.any (fun a => a = kv.1) = true
  · simp [ha]
  · by_cases hf : acc.1.fileExists (vr ++ kv.2.path) = true
    · simp only [ha, Bool.false_eq_true, if_false, hf, if_true]
      simp [purgePairFilesUnchanged, FS.removeFile]
    · simp only [ha, Bool.false_eq_true, if_false, hf]
      symm
      apply List.filter_eq_self.mpr
      intro f hfm
      have hne : ¬ (f.1 = vr ++ kv.2.path) := by
        intro hc
        apply hf
        unfold FS.fileExists
        rw [List.any_eq_true]
        exact ⟨f, hfm, by simp [hc]⟩
      simp [hne]

/-- Helper: the deletion loop's final files are the initial files minus
exactly the dead logged paths of the snapshot. -/
theorem deletionFoldFiles (vr : FPath) (alive : List String) :
    ∀ (snap : List (String × LogEntry))
      (acc : FS × List (String × LogEntry) × List Eff),
      (List.foldl (deletionStep vr alive) acc snap).1.files =
        acc.1.files.filter (fun f => ! deadLoggedPath vr alive snap f.1) := by
  intro snap
  induction snap with
  | nil =>
    intro acc
    simp [deadLoggedPath]
  | cons kv rest ih =>
    intro acc
    rw [List.foldl_cons, ih, deletionStepFiles]
    by_cases ha : alive.any (fun a => a = kv.1) = true
    · rw [if_pos ha]
      apply List.filter_congr
      intro f _
      simp only [deadLoggedPath, List.any_cons, ha, Bool.not_true,
        Bool.false_and, Bool.false_or]
      simp
    · rw [if_neg ha, List.filter_filter]
      apply List.filter_congr
      intro f _
      simp only [deadLoggedPath, List.any_cons,
        Bool.not_eq_true] at ha ⊢
      rw [ha]
      by_cases hfp : f.1 = vr ++ kv.2.path
      · simp [hfp]
      · have hfp2 : ¬ (vr ++ kv.2.path = f.1) := fun h => hfp h.symm
        simp [hfp, hfp2]

/-- Helper: `.sync` under the vault root is never a prefix of the
ancestor chain purged after removing a logged document (logged paths do
not start with `.sync`). -/
theorem syncNotOnPurgeChain (vr : FPath) (path : List String)
    (hne : path ≠ []) (hhead : path.head? ≠ some ".sync") :
    ∀ j, (vr ++ [".sync"]) ≠ ((vr ++ path).dropLast).take j := by
  have hstart : (vr ++ path).dropLast = vr ++ path.dropLast := by
    induction vr with
    | nil => rfl
    | cons a l ihl =>
      have hl : l ++ path ≠ [] := by
        simp [hne]
      simp only [List.cons_append, List.dropLast_cons_of_ne_nil hl, ihl]
  intro j heq
  rw [hstart] at heq
  have hlen2 : (vr ++ [".sync"]).length = ((vr ++ path.dropLast).take j).length :=
    congrArg List.length heq
  rw [List.length_take, List.length_append, List.length_append] at hlen2
  simp only [List.length_singleton] at hlen2
  have hjvr : vr.length ≤ j := by omega
  have hq1 : 1 ≤ path.dropLast.length := by omega
  rw [List.take_append_eq_append_take, List.take_of_length_le hjvr] at heq
  have hcanc : [".sync"] = path.dropLast.take (j - vr.length) :=
    List.append_cancel_left heq
  cases hqe : path.dropLast with
  | nil => rw [hqe] at hq1; simp at hq1
  | cons b q2 =>
    rw [hqe] at hcanc
    have hk : ∃ k, j - vr.length = k + 1 := ⟨j - vr.length - 1, by omega⟩
    obtain ⟨k, hk2⟩ := hk
    rw [hk2, List.take_succ_cons] at hcanc
    have hb : b = ".sync" := by
      have := hcanc
      simp at this
      exact this.1.symm
    apply hhead
    have hpre : path.dropLast <+: path := List.dropLast_prefix path
    obtain ⟨r, hr⟩ := hpre
    rw [hqe] at hr
    rw [← hr, hb]
    rfl

/-- Helper: each deletion-loop iteration keeps the vault root and its
`.sync` directory in place. -/
theorem deletionStepDirs (vr : FPath) (alive : List String)
    (acc : FS × List (String × LogEntry) × List Eff) (kv : String × LogEntry)
    (hne : kv.2.path ≠ []) (hhead : kv.2.path.head? ≠ some ".sync")
    (h1 : vr ∈ acc.1.dirs) (h2 : (vr ++ [".sync"]) ∈ acc.1.dirs) :
    vr ∈ (deletionStep vr alive acc kv).1.dirs ∧
      (vr ++ [".sync"]) ∈ (deletionStep vr alive acc kv).1.dirs := by
  unfold deletionStep
  by_cases ha : alive.any (fun a => a = kv.1) = true
  · simp only [ha, if_true]; exact ⟨h1, h2⟩
  · simp only [ha, Bool.false_eq_true, if_false]
    by_cases hf : acc.1.fileExists (vr ++ kv.2.path) = true
    · simp only [hf, if_true]
      unfold purgeEmptyDirs
      exact purgeKeepsRootAndSync vr _ _ _ h1 h2
        (syncNotOnPurgeChain vr kv.2.path hne hhead)
    · simp only [hf, Bool.false_eq_true, if_false]
      exact ⟨h1, h2⟩

/-- Helper: the deletion loop keeps the vault root and `.sync` in
place. -/
theorem deletionFoldDirs (vr : FPath) (alive : List String) :
    ∀ (snap : List (String × LogEntry))
      (acc : FS × List (String × LogEntry) × List Eff),
      (∀ kv ∈ snap, kv.2.path ≠ [] ∧ kv.2.path.head? ≠ some ".sync") →
      vr ∈ acc.1.dirs → (vr ++ [".sync"]) ∈ acc.1.dirs →
      vr ∈ (List.foldl (deletionStep vr alive) acc snap).1.dirs ∧
        (vr ++ [".sync"]) ∈ (List.foldl (deletionStep vr alive) acc snap).1.dirs := by
  intro snap
  induction snap with
  | nil => intro acc _ h1 h2; exact ⟨h1, h2⟩
  | cons kv rest ih =>
    intro acc hcond h1 h2
    rw [List.foldl_cons]
    have hkv := hcond kv (List.mem_cons_self kv rest)
    have hstep := deletionStepDirs vr alive acc kv hkv.1 hkv.2 h1 h2
    exact ih _ (fun x hx => hcond x (List.mem_cons_of_mem kv hx))
      hstep.1 hstep.2

/-- Helper: the last segment of an appended path is the last segment of
its non-empty tail. -/
theorem getLastDAppend (l1 l2 : List String) (h : l2 ≠ []) :
    (l1 ++ l2).getLastD "" = l2.getLastD "" := by
  rw [List.getLastD_eq_getLast?, List.getLastD_eq_getLast?,
    List.getLast?_append_of_ne_nil l1 h]

/-- Helper: a path whose last segment ends in `.md` is non-empty. -/
theorem pathNeNilOfMd (p : List String)
    (h : endsWithS (p.getLastD "") ".md" = true) : p ≠ [] := by
  intro hc
  rw [hc] at h
  exact absurd h (by decide)

/-- C7: the deletion-reconciliation pass removes exactly the local
documents whose logged remote id is absent from the live remote id set
(the filesystem's remaining files are the original ones filtered by
those dead logged paths); it never removes a `.canvas` side-artifact
(logged paths are all markdown documents); and it never removes the
vault root directory itself (the `.sync` directory created at the start
of every pull keeps the root non-empty, and logged paths never lie in
`.sync`). -/
theorem deletionPassExact (vr : FPath) (alive : List String) (fs : FS)
    (log : List (String × LogEntry))
    (hmd : ∀ kv ∈ log, endsWithS (kv.2.path.getLastD "") ".md" = true)
    (hnosync : ∀ kv ∈ log, kv.2.path.head? ≠ some ".sync")
    (hvr : vr ∈ fs.dirs)
    (hsync : (vr ++ [".sync"]) ∈ fs.dirs) :
    ((deletionPass vr alive fs log).1.files =
        fs.files.filter (fun f => ! deadLoggedPath vr alive log f.1)) ∧
    (∀ f ∈ fs.files, endsWithS (f.1.getLastD "") ".canvas" = true →
        f ∈ (deletionPass vr alive fs log).1.files) ∧
    vr ∈ (deletionPass vr alive fs log).1.dirs := by
  refine ⟨?_, ?_, ?_⟩
  · unfold deletionPass
    exact deletionFoldFiles vr alive log (fs, log, [])
  · intro f hf hcanvas
    unfold deletionPass
    rw [deletionFoldFiles vr alive log (fs, log, [])]
    rw [List.mem_filter]
    refine ⟨hf, ?_⟩
    rw [Bool.not_eq_true']
    rw [deadLoggedPath, List.any_eq_false]
    intro kv hkv hand
    rw [Bool.and_eq_true] at hand
    have hpath : vr ++ kv.2.path = f.1 := of_decide_eq_true hand.2
    have hmdkv := hmd kv hkv
    have hnn : kv.2.path ≠ [] := pathNeNilOfMd _ hmdkv
    have hlast : f.1.getLastD "" = kv.2.path.getLastD "" := by
      rw [← hpath]
      exact getLastDAppend vr kv.2.path hnn
    rw [hlast] at hcanvas
    exact mdNotCanvas _ hmdkv hcanvas
  · unfold deletionPass
    exact (deletionFoldDirs vr alive log (fs, log, [])
      (fun kv hkv => ⟨pathNeNilOfMd _ (hmd kv hkv), hnosync kv hkv⟩)
      hvr hsync).1

/-- C7 (witness): the deletion-pass characterization on the concrete
vault with one dead document and its canvas side-artifact. -/
theorem deletionPassExactWitness :
    (∀ kv ∈ delLog, endsWithS (kv.2.path.getLastD "") ".md" = true) ∧
      ((deletionPass ["vault"] [] delFs delLog).1.files =
        delFs.files.filter (fun f => ! deadLoggedPath ["vault"] [] delLog f.1) ∧
      (∀ f ∈ delFs.files, endsWithS (f.1.getLastD "") ".canvas" = true →
        f ∈ (deletionPass ["vault"] [] delFs delLog).1.files) ∧
      ["vault"] ∈ (deletionPass ["vault"] [] delFs delLog).1.dirs) :=
  ⟨by decide,
    deletionPassExact ["vault"] [] delFs delLog (by decide) (by decide)
      (by decide) (by decide)⟩

-- ────────────────────────────────────────────────────────────────────
-- lemmas toward C1: map/list plumbing
-- ────────────────────────────────────────────────────────────────────

theorem lookupASetASelf {α : Type} (l : List (String × α)) (k : String) (v : α) :
    lookupA (setA l k v) k = some v := by
  unfold lookupA setA
  by_cases h : (l.find? (fun kv => kv.1 = k)).isSome
  · rw [if_pos h]
    induction l with
    | nil => simp at h
    | cons kv rest ih =>
      by_cases hk : kv.1 = k
      · simp [hk]
      · rw [List.find?_cons_of_neg _ (by simp [hk])] at h
        simp only [List.map_cons, if_neg hk]
        rw [List.find?_cons_of_neg _ (by simp [hk])]
        exact ih h
  · rw [if_neg h]
    rw [List.find?_append]
    rw [Option.not_isSome_iff_eq_none] at h
    rw [h]
    simp

theorem findMapSetNe {α : Type} (k k2 : String) (v : α) (h : k2 ≠ k) :
    ∀ (l : List (String × α)),
      (l.map (fun kv => if kv.1 = k then (k, v) else kv)).find?
          (fun kv => kv.1 = k2) =
        l.find? (fun kv => kv.1 = k2) := by
  intro l
  induction l with
  | nil => rfl
  | cons kv rest ih =>
    by_cases hkk : kv.1 = k
    · simp only [List.map_cons, if_pos hkk]
      rw [List.find?_cons_of_neg _ (by simp; exact fun hc => h hc.symm),
        List.find?_cons_of_neg _
          (by simp only [decide_eq_true_eq]; intro hc; exact h (hc ▸ hkk))]
      exact ih
    · simp only [List.map_cons, if_neg hkk]
      by_cases hk2 : kv.1 = k2
      · rw [List.find?_cons_of_pos _ (by simp [hk2]),
          List.find?_cons_of_pos _ (by simp [hk2])]
      · rw [List.find?_cons_of_neg _ (by simp [hk2]),
          List.find?_cons_of_neg _ (by simp [hk2])]
        exact ih

theorem lookupASetANe {α : Type} (l : List (String × α)) (k k2 : String)
    (v : α) (h : k2 ≠ k) : lookupA (setA l k v) k2 = lookupA l k2 := by
  unfold lookupA setA
  by_cases hp : (l.find? (fun kv => kv.1 = k)).isSome
  · rw [if_pos hp, findMapSetNe k k2 v h l]
  · rw [if_neg hp, List.find?_append]
    cases hfind : l.find? (fun kv => kv.1 = k2) with
    | some x => simp [hfind]
    | none =>
      have hkk2 : ¬ k = k2 := fun hc => h hc.symm
      simp [hfind, hkk2]

/-- Helper: with unique remote ids, retrieval by a member's id returns
that member. -/
theorem getPageSelf (r : RemoteStore) (hn : idsNodup r) (p : Page)
    (hp : p ∈ r.pages) : getPage r p.id = some p := by
  unfold getPage
  unfold idsNodup at hn
  have aux : ∀ (l : List Page), (l.map (fun x => x.id)).Nodup → p ∈ l →
      l.find? (fun q => q.id = p.id) = some p := by
    intro l
    induction l with
    | nil => intro _ hmem; simp at hmem
    | cons q rest ih =>
      intro hnd hmem
      rcases List.mem_cons.mp hmem with rfl | hmem2
      · simp
      · rw [List.map_cons, List.nodup_cons] at hnd
        have hne : ¬ q.id = p.id := by
          intro hc
          exact hnd.1 (hc ▸ List.mem_map_of_mem (fun x => x.id) hmem2)
        rw [List.find?_cons_of_neg _ (by simp [hne])]
        exact ih hnd.2 hmem2
  exact aux r.pages hn hp

/-- Helper: `setA` with a remote-consistent binding preserves map
consistency. -/
theorem mapConsistentSetA (r : RemoteStore) (m : List (String × Page))
    (pg : Page) (hm : mapConsistent r m) (hpg : getPage r pg.id = some pg) :
    mapConsistent r (setA m pg.id pg) := by
  intro kv hkv
  unfold setA at hkv
  by_cases hp : (m.find? (fun kv => kv.1 = pg.id)).isSome
  · rw [if_pos hp] at hkv
    rcases List.mem_map.mp hkv with ⟨kv0, hkv0, heq⟩
    by_cases hk : kv0.1 = pg.id
    · rw [if_pos hk] at heq
      rw [← heq]
      exact hpg
    · rw [if_neg hk] at heq
      rw [← heq]
      exact hm kv0 hkv0
  · rw [if_neg hp] at hkv
    rcases List.mem_append.mp hkv with hl | hr
    · exact hm kv hl
    · rw [List.mem_singleton.mp hr]
      exact hpg

/-- Helper: a found page carries the id it was found by. -/
theorem getPageId (r : RemoteStore) (pid : String) (p : Page)
    (h : getPage r pid = some p) : p.id = pid := by
  unfold getPage at h
  have := List.find?_some h
  simpa using this

/-- Helper: the page-map closure only stores remote-consistent
bindings. -/
theorem buildPageMapGoConsistent (r : RemoteStore) :
    ∀ (fuel : Nat) (queue : List Page) (m : List (String × Page)),
      (∀ p ∈ queue, getPage r p.id = some p) → mapConsistent r m →
      mapConsistent r (buildPageMapGo r fuel queue m) := by
  intro fuel
  induction fuel with
  | zero => intro queue m _ hm; exact hm
  | succ n ih =>
    intro queue m hq hm
    cases queue with
    | nil => exact hm
    | cons pg rest =>
      unfold buildPageMapGo
      have hqr : ∀ p ∈ rest, getPage r p.id = some p :=
        fun p hp => hq p (List.mem_cons_of_mem pg hp)
      have hpg : getPage r pg.id = some pg := hq pg (List.mem_cons_self pg rest)
      by_cases hin : (lookupA m pg.id).isSome
      · rw [if_pos hin]
        exact ih rest m hqr hm
      · rw [if_neg hin]
        dsimp only
        have hm1 : mapConsistent r (setA m pg.id pg) :=
          mapConsistentSetA r m pg hm hpg
        cases hpar : pg.parent with
        | none => exact ih rest _ hqr hm1
        | some pid =>
          dsimp only
          by_cases hin2 : (lookupA (setA m pg.id pg) pid).isSome
          · rw [if_pos hin2]
            exact ih rest _ hqr hm1
          · rw [if_neg hin2]
            cases hget : getPage r pid with
            | some parentPg =>
              apply ih (parentPg :: rest) _ _ hm1
              intro p hp
              rcases List.mem_cons.mp hp with rfl | hmem
              · rw [getPageId r pid p hget]
                exact hget
              · exact hqr p hmem
            | none => exact ih rest _ hqr hm1

/-- Helper: delta pages are remote pages. -/
theorem deltaSubset (r : RemoteStore) (lp : Option Nat) (p : Page)
    (hp : p ∈ computeDelta r lp) : p ∈ r.pages := by
  cases lp with
  | none =>
    unfold computeDelta getPages at hp
    exact (List.mem_filter.mp hp).1
  | some t =>
    unfold computeDelta getPagesAfter getPages at hp
    exact (List.mem_filter.mp (List.mem_filter.mp hp).1).1

/-- Helper: the page map `_pull` builds is remote-consistent. -/
theorem buildPageMapConsistent (r : RemoteStore) (hn : idsNodup r)
    (lp : Option Nat) (fuel : Nat) :
    mapConsistent r (buildPageMap r (computeDelta r lp) fuel) := by
  unfold buildPageMap
  apply buildPageMapGoConsistent
  · intro p hp
    exact getPageSelf r hn p (deltaSubset r lp p (List.mem_reverse.mp hp))
  · intro kv hkv
    simp at hkv

/-- Helper: under map consistency, map-then-fetch resolution equals
plain retrieval. -/
theorem lookupOrFetchEq (r : RemoteStore) (m : List (String × Page))
    (hm : mapConsistent r m) (pid : String) :
    lookupOrFetch m r pid = getPage r pid := by
  unfold lookupOrFetch
  cases hl : lookupA m pid with
  | none => rfl
  | some v =>
    unfold lookupA at hl
    cases hf : m.find? (fun kv => kv.1 = pid) with
    | none => rw [hf] at hl; simp at hl
    | some kv =>
      rw [hf] at hl
      simp at hl
      have hk : kv.1 = pid := by
        have := List.find?_some hf
        simpa using this
      have := hm kv (List.mem_of_find?_eq_some hf)
      rw [hk, hl] at this
      exact this.symm

/-- Helper: under map consistency, the in-run ancestor walk equals the
pure walk against the store. -/
theorem buildPartsGoCongr (r : RemoteStore) (m : List (String × Page))
    (hm : mapConsistent r m) :
    ∀ (fuel : Nat) (pg : Page) (acc : List String),
      buildPartsGo m r fuel pg acc = buildPartsGo [] r fuel pg acc := by
  intro fuel
  induction fuel with
  | zero => intro pg acc; rfl
  | succ n ih =>
    intro pg acc
    unfold buildPartsGo
    cases hpar : pg.parent with
    | none => rfl
    | some pid =>
      dsimp only
      rw [lookupOrFetchEq r m hm pid]
      have h2 : lookupOrFetch [] r pid = getPage r pid := rfl
      rw [h2]
      cases hget : getPage r pid with
      | none => rfl
      | some q => exact ih q _

/-- Helper: when the pure ancestor walk succeeds, the `_depth` walk over
a consistent page map also terminates. -/
theorem depthSomeOfParts (r : RemoteStore) (m : List (String × Page))
    (hm : mapConsistent r m) :
    ∀ (fuel : Nat) (pg : Page) (acc : List String) (out : List String) (d : Nat),
      buildPartsGo [] r fuel pg acc = some out →
      (depthGo m fuel (some pg) d).isSome := by
  intro fuel
  induction fuel with
  | zero => intro pg acc out d h; simp [buildPartsGo] at h
  | succ n ih =>
    intro pg acc out d h
    unfold buildPartsGo at h
    unfold depthGo
    cases hpar : pg.parent with
    | none => simp
    | some pid =>
      rw [hpar] at h
      dsimp only at h ⊢
      have h2 : lookupOrFetch [] r pid = getPage r pid := rfl
      rw [h2] at h
      cases hget : getPage r pid with
      | none => rw [hget] at h; simp at h
      | some q =>
        rw [hget] at h
        cases hl : lookupA m pid with
        | none =>
          have hn1 : 1 ≤ n := by
            cases n with
            | zero => simp [buildPartsGo] at h
            | succ k => omega
          obtain ⟨k, hk⟩ : ∃ k, n = k + 1 := ⟨n - 1, by omega⟩
          rw [hk]
          simp [depthGo]
        | some v =>
          have hv : getPage r pid = some v := by
            have := hm
            have hl2 : lookupOrFetch m r pid = some v := by
              unfold lookupOrFetch
              rw [hl]
            rw [lookupOrFetchEq r m hm pid] at hl2
            exact hl2
          have hvq : v = q := by
            rw [hv] at hget
            exact Option.some.inj hget
          rw [hvq]
          exact ih q _ out (d + 1) h

-- ────────────────────────────────────────────────────────────────────
-- lemmas toward C1: filesystem reads after writes
-- ────────────────────────────────────────────────────────────────────

theorem getFileWriteSelf (fs : FS) (p : FPath) (d : FileData) :
    (fs.writeFile p d).getFile p = some d := by
  unfold FS.writeFile FS.getFile FS.fileExists
  by_cases hex : fs.files.any (fun f => f.1 = p) = true
  · rw [if_pos hex]
    have aux : ∀ (L : List (FPath × FileData)), L.any (fun f => f.1 = p) = true →
        (L.map (fun f => if f.1 = p then (p, d) else f)).find?
          (fun f => f.1 = p) = some (p, d) := by
      intro L
      induction L with
      | nil => intro hc; simp at hc
      | cons f rest ih =>
        intro hany
        by_cases hf : f.1 = p
        · simp [hf]
        · simp only [List.map_cons, if_neg hf]
          rw [List.find?_cons_of_neg _ (by simp [hf])]
          rw [List.any_cons] at hany
          simp only [hf, decide_False, Bool.false_or] at hany
          exact ih hany
    rw [aux fs.files hex]
    rfl
  · rw [if_neg hex]
    rw [List.find?_append]
    have hnone : fs.files.find? (fun f => f.1 = p) = none := by
      apply Option.not_isSome_iff_eq_none.mp
      rw [List.find?_isSome]
      intro hc
      apply hex
      rw [List.any_eq_true]
      exact hc
    rw [hnone]
    simp

theorem getFileWriteNe (fs : FS) (p : FPath) (d : FileData) (q : FPath)
    (h : q ≠ p) : (fs.writeFile p d).getFile q = fs.getFile q := by
  unfold FS.writeFile FS.getFile FS.fileExists
  by_cases hex : fs.files.any (fun f => f.1 = p) = true
  · rw [if_pos hex]
    have aux : ∀ (L : List (FPath × FileData)),
        (L.map (fun f => if f.1 = p then (p, d) else f)).find?
            (fun f => f.1 = q) = L.find? (fun f => f.1 = q) := by
      intro L
      induction L with
      | nil => rfl
      | cons f rest ih =>
        by_cases hf : f.1 = p
        · simp only [List.map_cons, if_pos hf]
          rw [List.find?_cons_of_neg _ (by simp; exact fun hc => h hc.symm),
            List.find?_cons_of_neg _
              (by simp only [decide_eq_true_eq]; intro hc; exact h (hc ▸ hf))]
          exact ih
        · simp only [List.map_cons, if_neg hf]
          by_cases hq : f.1 = q
          · rw [List.find?_cons_of_pos _ (by simp [hq]),
              List.find?_cons_of_pos _ (by simp [hq])]
          · rw [List.find?_cons_of_neg _ (by simp [hq]),
              List.find?_cons_of_neg _ (by simp [hq])]
            exact ih
    rw [aux fs.files]
  · rw [if_neg hex]
    rw [List.find?_append]
    cases hfind : fs.files.find? (fun f => f.1 = q) with
    | some x => simp [hfind]
    | none =>
      have hpq : ¬ ((p, d).1 = q) := fun hc => h hc.symm
      simp [hfind, hpq]

theorem getFileRemoveNe (fs : FS) (p q : FPath) (h : q ≠ p) :
    (fs.removeFile p).getFile q = fs.getFile q := by
  unfold FS.removeFile FS.getFile
  have aux : ∀ (L : List (FPath × FileData)),
      (L.filter (fun f => f.1 ≠ p)).find? (fun f => f.1 = q) =
        L.find? (fun f => f.1 = q) := by
    intro L
    induction L with
    | nil => rfl
    | cons f rest ih =>
      by_cases hf : f.1 = p
      · have hq : ¬ f.1 = q := by rw [hf]; exact fun hc => h hc.symm
        rw [List.filter_cons_of_neg (by simp [hf])]
        rw [List.find?_cons_of_neg _ (by simp [hq])]
        exact ih
      · rw [List.filter_cons_of_pos (by simp [hf])]
        by_cases hq : f.1 = q
        · rw [List.find?_cons_of_pos _ (by simp [hq]),
            List.find?_cons_of_pos _ (by simp [hq])]
        · rw [List.find?_cons_of_neg _ (by simp [hq]),
            List.find?_cons_of_neg _ (by simp [hq])]
          exact ih
  rw [aux fs.files]

theorem fileExistsOfGetFile (fs : FS) (p : FPath) (d : FileData)
    (h : fs.getFile p = some d) : fs.fileExists p = true := by
  unfold FS.getFile at h
  unfold FS.fileExists
  cases hf : fs.files.find? (fun f => f.1 = p) with
  | none => rw [hf] at h; simp at h
  | some kv =>
    have hp := List.find?_some hf
    have hm := List.mem_of_find?_eq_some hf
    rw [List.any_eq_true]
    exact ⟨kv, hm, hp⟩

theorem isMdFileExists (fs : FS) (p : FPath) (h : fs.isMdFile p = true) :
    fs.fileExists p = true := by
  unfold FS.isMdFile at h
  cases hg : fs.getFile p with
  | none => rw [hg] at h; simp at h
  | some d => exact fileExistsOfGetFile fs p d hg

theorem countPatchesAppend (a b : List Eff) :
    countPatches (a ++ b) = countPatches a + countPatches b := by
  unfold countPatches
  exact List.countP_append _ _ _

-- ────────────────────────────────────────────────────────────────────
-- lemmas toward C1: markdown and canvas paths never collide
-- ────────────────────────────────────────────────────────────────────

theorem endsWithSAppendSelf (a suf : String) :
    endsWithS (a ++ suf) suf = true := by
  unfold endsWithS
  have hdata : (a ++ suf).toList = a.toList ++ suf.toList := by
    simp [String.toList]
  rw [hdata, List.reverse_append]
  rw [List.isPrefixOf_iff_prefix]
  exact List.prefix_append _ _

theorem mdPathNeCanvasPath (l1 l2 : List String) (s t : String) :
    l1 ++ [s ++ ".md"] ≠ l2 ++ [t ++ ".canvas"] := by
  intro h
  have hlast : some (s ++ ".md") = some (t ++ ".canvas") := by
    rw [← List.getLast?_concat l1, ← List.getLast?_concat l2, h]
  have heq : s ++ ".md" = t ++ ".canvas" := Option.some.inj hlast
  apply mdNotCanvas (s ++ ".md")
  · exact endsWithSAppendSelf s ".md"
  · rw [heq]
    exact endsWithSAppendSelf t ".canvas"

-- ────────────────────────────────────────────────────────────────────
-- lemmas toward C1: the coherence invariant
-- ────────────────────────────────────────────────────────────────────

theorem coherentChkSpec (vr : FPath) (fuel : Nat) (r : RemoteStore) (fs : FS)
    (log : List (String × LogEntry))
    (h : coherentChk vr fuel r fs log = true) (p : Page) (hp : p ∈ r.pages) :
    ∃ e, lookupA log p.id = some e ∧ e.parentId = p.parent ∧
      e.lastEdited = p.lastEdited ∧ buildMdPath [] r fuel p = some e.path ∧
      fs.isMdFile (vr ++ e.path) = true := by
  unfold coherentChk at h
  rw [List.all_eq_true] at h
  have hb := h p hp
  cases hl : lookupA log p.id with
  | none => rw [hl] at hb; simp at hb
  | some e =>
    rw [hl] at hb
    simp only [Bool.and_eq_true, decide_eq_true_eq] at hb
    exact ⟨e, rfl, hb.1.1.1, hb.1.1.2, hb.1.2, hb.2⟩

/-- Helper: with unique ids, two member pages with the same id are the
same page. -/
theorem pageEqOfIdEq (r : RemoteStore) (hn : idsNodup r) (p q : Page)
    (hp : p ∈ r.pages) (hq : q ∈ r.pages) (h : p.id = q.id) : p = q := by
  have h1 := getPageSelf r hn p hp
  have h2 := getPageSelf r hn q hq
  rw [h] at h1
  rw [h1] at h2
  exact Option.some.inj h2

/-- Helper: replacing a present key leaves the key list unchanged. -/
theorem setAKeysOfPresent {α : Type} (l : List (String × α)) (k : String)
    (v : α) (h : (lookupA l k).isSome = true) :
    (setA l k v).map (fun kv => kv.1) = l.map (fun kv => kv.1) := by
  unfold setA
  unfold lookupA at h
  have hf : (l.find? (fun kv => kv.1 = k)).isSome = true := by
    cases hx : l.find? (fun kv => kv.1 = k) with
    | none => rw [hx] at h; simp at h
    | some x => rfl
  rw [if_pos hf, List.map_map]
  apply List.map_congr_left
  intro kv hkv
  simp only [Function.comp_apply]
  by_cases hk : kv.1 = k
  · rw [if_pos hk]; exact hk.symm
  · rw [if_neg hk]

/-- An fs change that preserves every markdown document lying at a
`…/<name>.md` location under the root. -/
def mdPreserving (vr : FPath) (fs fs2 : FS) : Prop :=
  ∀ (l : List String) (s : String),
    fs.isMdFile (vr ++ (l ++ [s ++ ".md"])) = true →
    fs2.isMdFile (vr ++ (l ++ [s ++ ".md"])) = true

/-- Helper: writing a markdown file anywhere is md-preserving. -/
theorem mdPreservingWriteMd (vr : FPath) (fs : FS) (p : FPath)
    (fm : List (String × String)) (b : String) :
    mdPreserving vr fs (fs.writeFile p (FileData.mdF fm b)) := by
  intro l s hmd
  by_cases hq : vr ++ (l ++ [s ++ ".md"]) = p
  · unfold FS.isMdFile
    rw [← hq, getFileWriteSelf]
  · unfold FS.isMdFile
    rw [getFileWriteNe fs p _ _ hq]
    exact hmd

/-- Helper: writing a canvas file at a canvas location is
md-preserving. -/
theorem mdPreservingWriteCanvas (vr : FPath) (fs : FS) (l2 : List String)
    (t title : String) :
    mdPreserving vr fs
      (fs.writeFile (vr ++ (l2 ++ [t ++ ".canvas"])) (FileData.canvasF title)) := by
  intro l s hmd
  have hq : vr ++ (l ++ [s ++ ".md"]) ≠ vr ++ (l2 ++ [t ++ ".canvas"]) := by
    intro hc
    exact mdPathNeCanvasPath l l2 s t (List.append_cancel_left hc)
  unfold FS.isMdFile
  rw [getFileWriteNe fs _ _ _ hq]
  exact hmd

/-- Helper: removing a canvas file is md-preserving. -/
theorem mdPreservingRemoveCanvas (vr : FPath) (fs : FS) (l2 : List String)
    (t : String) :
    mdPreserving vr fs (fs.removeFile (vr ++ (l2 ++ [t ++ ".canvas"]))) := by
  intro l s hmd
  have hq : vr ++ (l ++ [s ++ ".md"]) ≠ vr ++ (l2 ++ [t ++ ".canvas"]) := by
    intro hc
    exact mdPathNeCanvasPath l l2 s t (List.append_cancel_left hc)
  unfold FS.isMdFile
  rw [getFileRemoveNe fs _ _ hq]
  exact hmd

theorem mdPreservingRefl (vr : FPath) (fs : FS) : mdPreserving vr fs fs :=
  fun _ _ h => h

theorem mdPreservingTrans (vr : FPath) (fs1 fs2 fs3 : FS)
    (h1 : mdPreserving vr fs1 fs2) (h2 : mdPreserving vr fs2 fs3) :
    mdPreserving vr fs1 fs3 :=
  fun l s h => h2 l s (h1 l s h)

/-- Helper: refreshing one page's log entry with matching fields, while
changing the filesystem in an md-preserving way, keeps the state
coherent. -/
theorem coherentChkUpdate (vr : FPath) (fuel : Nat) (r : RemoteStore)
    (hn : idsNodup r) (fs fs2 : FS) (log : List (String × LogEntry))
    (pg : Page) (e entry : LogEntry)
    (hpg : pg ∈ r.pages)
    (hcoh : coherentChk vr fuel r fs log = true)
    (hle : lookupA log pg.id = some e)
    (hp1 : entry.parentId = pg.parent)
    (hp2 : entry.lastEdited = pg.lastEdited)
    (hp3 : entry.path = e.path)
    (hfs : mdPreserving vr fs fs2) :
    coherentChk vr fuel r fs2 (setA log pg.id entry) = true := by
  unfold coherentChk
  rw [List.all_eq_true]
  intro p hp
  obtain ⟨e2, hle2, ha, hb, hc, hd⟩ := coherentChkSpec vr fuel r fs log hcoh p hp
  obtain ⟨parts2, hbp2, hsh2⟩ :
      ∃ parts2, buildParts [] r fuel p = some parts2 ∧
        e2.path = parts2 ++ [titleOf p ++ ".md"] := by
    unfold buildMdPath at hc
    cases hb2 : buildParts [] r fuel p with
    | none => rw [hb2] at hc; simp at hc
    | some ps =>
      rw [hb2] at hc
      simp at hc
      exact ⟨ps, rfl, hc.symm⟩
  have hmd2 : fs2.isMdFile (vr ++ e2.path) = true := by
    rw [hsh2] at hd ⊢
    exact hfs parts2 (titleOf p) hd
  by_cases hid : p.id = pg.id
  · have hpeq : p = pg := pageEqOfIdEq r hn p pg hp hpg hid
    rw [hid, lookupASetASelf]
    have he2e : e2 = e := by
      rw [hpeq, hle] at hle2
      exact (Option.some.inj hle2).symm
    simp only [Bool.and_eq_true, decide_eq_true_eq]
    refine ⟨⟨⟨?_, ?_⟩, ?_⟩, ?_⟩
    · rw [hp1, hpeq]
    · rw [hp2, hpeq]
    · rw [hp3, ← he2e]
      exact hc
    · rw [hp3, ← he2e]
      exact hmd2
  · rw [lookupASetANe log pg.id p.id entry hid, hle2]
    simp only [Bool.and_eq_true, decide_eq_true_eq]
    exact ⟨⟨⟨ha, hb⟩, hc⟩, hmd2⟩

/-- Helper: a markdown file yields markdown content on read. -/
theorem isMdFileGetFile (fs : FS) (p : FPath) (h : fs.isMdFile p = true) :
    ∃ fm body, fs.getFile p = some (FileData.mdF fm body) := by
  unfold FS.isMdFile at h
  cases hg : fs.getFile p with
  | none => rw [hg] at h; simp at h
  | some d =>
    cases d with
    | mdF fm body => exact ⟨fm, body, rfl⟩
    | canvasF t => rw [hg] at h; simp at h

/-- Helper: `mkdirParents` touches only the directory set. -/
theorem getFileMkdir (fs : FS) (p q : FPath) :
    (fs.mkdirParents p).getFile q = fs.getFile q := rfl

/-- Helper: writing markdown content anywhere preserves markdown-ness at
every path. -/
theorem isMdFileWriteMd (fs : FS) (p : FPath) (fm : List (String × String))
    (b : String) (q : FPath) (h : fs.isMdFile q = true) :
    (fs.writeFile p (FileData.mdF fm b)).isMdFile q = true := by
  by_cases hq : q = p
  · unfold FS.isMdFile
    rw [hq, getFileWriteSelf]
  · unfold FS.isMdFile
    rw [getFileWriteNe fs p _ q hq]
    exact h

/-- Helper: when the markdown document is on disk, the canvas
side-artifact step succeeds, never patches the remote, never touches the
log, and preserves every markdown document. -/
theorem canvasStepSpec (vr : FPath) (relDir : List String) (titleStr : String)
    (cv : Bool) (ctx3 : Ctx)
    (hmd : ctx3.fs.isMdFile (vr ++ (relDir ++ [titleStr ++ ".md"])) = true) :
    ∃ ctx4, canvasStep vr relDir titleStr cv
        (vr ++ (relDir ++ [titleStr ++ ".md"])) ctx3 = Except.ok ctx4 ∧
      ctx4.remote = ctx3.remote ∧ ctx4.clock = ctx3.clock ∧
      ctx4.pagesLog = ctx3.pagesLog ∧
      mdPreserving vr ctx3.fs ctx4.fs ∧
      countPatches ctx4.trace = countPatches ctx3.trace := by
  unfold canvasStep
  rw [List.append_assoc vr relDir [titleStr ++ ".canvas"]]
  have hne : vr ++ (relDir ++ [titleStr ++ ".md"]) ≠
      vr ++ (relDir ++ [titleStr ++ ".canvas"]) := by
    intro hc
    exact mdPathNeCanvasPath relDir relDir titleStr titleStr
      (List.append_cancel_left hc)
  by_cases hcv : cv = true
  · by_cases hex : ctx3.fs.fileExists (vr ++ (relDir ++ [titleStr ++ ".canvas"])) = true
    · -- checked and present: the final else, no change
      refine ⟨ctx3, ?_, rfl, rfl, rfl, mdPreservingRefl vr ctx3.fs, rfl⟩
      simp [hcv, hex, pure, Except.pure]
    · -- checked and missing: create the canvas file
      rw [Bool.not_eq_true] at hex
      simp only [hcv, hex, decide_not, decide_False, Bool.not_false,
        Bool.true_and, if_true]
      refine ⟨_, rfl, rfl, rfl, rfl, ?_, ?_⟩
      · intro l s hl
        unfold FS.isMdFile
        have hq : vr ++ (l ++ [s ++ ".md"]) ≠
            vr ++ (relDir ++ [titleStr ++ ".canvas"]) := by
          intro hc
          exact mdPathNeCanvasPath l relDir s titleStr (List.append_cancel_left hc)
        rw [getFileWriteNe _ _ _ _ hq, getFileMkdir]
        exact hl
      · rw [countPatchesAppend]
        simp [countPatches, Eff.isPatchEff]
  · by_cases hex : ctx3.fs.fileExists (vr ++ (relDir ++ [titleStr ++ ".canvas"])) = true
    · -- unchecked and present: drop the canvas, rewrite the body
      obtain ⟨fm, body, hget⟩ := isMdFileGetFile ctx3.fs _ hmd
      have hget1 : (ctx3.fs.removeFile
            (vr ++ (relDir ++ [titleStr ++ ".canvas"]))).getFile
          (vr ++ (relDir ++ [titleStr ++ ".md"])) =
          some (FileData.mdF fm body) := by
        rw [getFileRemoveNe _ _ _ hne]
        exact hget
      rw [Bool.not_eq_true] at hcv
      simp only [hcv, hex, decide_not, decide_False, Bool.not_false,
        Bool.false_and, Bool.false_eq_true, if_false, Bool.true_and, if_true,
        hget1]
      refine ⟨_, rfl, rfl, rfl, rfl, ?_, ?_⟩
      · exact mdPreservingTrans vr ctx3.fs _ _
          (mdPreservingRemoveCanvas vr ctx3.fs relDir titleStr)
          (mdPreservingWriteMd vr _ _ fm _)
      · rw [countPatchesAppend]
        simp [countPatches, Eff.isPatchEff]
    · refine ⟨ctx3, ?_, rfl, rfl, rfl, mdPreservingRefl vr ctx3.fs, rfl⟩
      simp [hcv, hex, pure, Except.pure]

/-- Helper: materializing a page of an already-coherent state is a
no-op on the remote (no patches), keeps the state coherent, and leaves
the log's key set unchanged. -/
theorem writePageCoherent (vr : FPath) (r : RemoteStore) (m : List (String × Page))
    (fuel : Nat) (hn : idsNodup r) (hm : mapConsistent r m)
    (ctx : Ctx) (pg : Page) (hpg : pg ∈ r.pages)
    (hrem : ctx.remote = r)
    (hcoh : coherentChk vr fuel r ctx.fs ctx.pagesLog = true) :
    ∃ ctx2, writePage vr m fuel ctx pg = Except.ok ctx2 ∧
      ctx2.remote = r ∧
      coherentChk vr fuel r ctx2.fs ctx2.pagesLog = true ∧
      countPatches ctx2.trace = countPatches ctx.trace ∧
      ctx2.pagesLog.map (fun kv => kv.1) = ctx.pagesLog.map (fun kv => kv.1) := by
  obtain ⟨e, hle, hpar, hts, hbmp, hmdf⟩ :=
    coherentChkSpec vr fuel r ctx.fs ctx.pagesLog hcoh pg hpg
  obtain ⟨parts, hbp, hep⟩ : ∃ parts,
      buildPartsGo [] r fuel pg [titleOf pg] = some parts ∧
      e.path = parts ++ [titleOf pg ++ ".md"] := by
    unfold buildMdPath buildParts at hbmp
    cases hb : buildPartsGo [] r fuel pg [titleOf pg] with
    | none => rw [hb] at hbmp; simp at hbmp
    | some ps =>
      rw [hb] at hbmp
      simp at hbmp
      exact ⟨ps, rfl, hbmp.symm⟩
  have hbm : buildParts m ctx.remote fuel pg = some parts := by
    rw [hrem]
    unfold buildParts
    rw [buildPartsGoCongr r m hm]
    exact hbp
  have hmdf2 : ctx.fs.isMdFile (vr ++ (parts ++ [titleOf pg ++ ".md"])) = true := by
    rw [← hep]; exact hmdf
  have hfe : ctx.fs.fileExists (vr ++ (parts ++ [titleOf pg ++ ".md"])) = true :=
    isMdFileExists _ _ hmdf2
  obtain ⟨fm, body, hgf⟩ := isMdFileGetFile ctx.fs _ hmdf2
  unfold writePage
  rw [hbm]
  dsimp only
  simp only [pure_bind]
  simp only [hle]
  simp only [hep, hpar, hts, ne_eq, eq_self_iff_true, not_true, decide_False,
    Bool.or_self, Bool.false_or, Bool.or_false, Bool.false_eq_true, if_false]
  simp only [hfe, decide_True, not_true, decide_False, Bool.false_or,
    Bool.or_self, Bool.false_eq_true, if_false]
  simp only [pure_bind]
  simp only [hgf]
  obtain ⟨ctx4, hcs, hr4, hclk4, hl4, hmp4, hcp4⟩ :=
    canvasStepSpec vr parts (titleOf pg) pg.canvas
      { remote := ctx.remote, clock := ctx.clock, fs := ctx.fs,
        pagesLog := setA ctx.pagesLog pg.id
          { parentId := pg.parent, lastEdited := pg.lastEdited,
            path := parts ++ [titleOf pg ++ ".md"],
            hash := fingerprint (FileData.mdF fm body) },
        trace := ctx.trace } hmdf2
  refine ⟨ctx4, hcs, ?_, ?_, ?_, ?_⟩
  · rw [hr4]
    exact hrem
  · rw [hl4]
    exact coherentChkUpdate vr fuel r hn ctx.fs ctx4.fs ctx.pagesLog pg e
      { parentId := pg.parent, lastEdited := pg.lastEdited,
        path := parts ++ [titleOf pg ++ ".md"],
        hash := fingerprint (FileData.mdF fm body) }
      hpg hcoh hle rfl rfl hep.symm hmp4
  · rw [hcp4]
  · rw [hl4]
    exact setAKeysOfPresent ctx.pagesLog pg.id _ (by rw [hle]; rfl)

/-- Helper: the write loop over a coherent state succeeds, patches
nothing, and keeps the state coherent. -/
theorem foldWritePagesCoherent (vr : FPath) (r : RemoteStore)
    (m : List (String × Page)) (fuel : Nat) (hn : idsNodup r)
    (hm : mapConsistent r m) :
    ∀ (ps : List Page) (ctx : Ctx), (∀ p ∈ ps, p ∈ r.pages) →
      ctx.remote = r →
      coherentChk vr fuel r ctx.fs ctx.pagesLog = true →
      ∃ ctx1, ps.foldlM (writePage vr m fuel) ctx = Except.ok ctx1 ∧
        ctx1.remote = r ∧
        coherentChk vr fuel r ctx1.fs ctx1.pagesLog = true ∧
        countPatches ctx1.trace = countPatches ctx.trace ∧
        ctx1.pagesLog.map (fun kv => kv.1) = ctx.pagesLog.map (fun kv => kv.1) := by
  intro ps
  induction ps with
  | nil =>
    intro ctx _ h1 h2
    exact ⟨ctx, by simp [pure, Except.pure], h1, h2, rfl, rfl⟩
  | cons p ps ih =>
    intro ctx hmem h1 h2
    obtain ⟨ctx2, hw, hr2, hc2, hp2, hk2⟩ :=
      writePageCoherent vr r m fuel hn hm ctx p (hmem p (by simp)) h1 h2
    obtain ⟨ctx1, hf, hr1, hc1, hp1, hk1⟩ :=
      ih ctx2 (fun q hq => hmem q (by simp [hq])) hr2 hc2
    refine ⟨ctx1, ?_, hr1, hc1, ?_, ?_⟩
    · rw [List.foldlM_cons, hw]
      simpa [Bind.bind, Except.bind] using hf
    · rw [hp1, hp2]
    · rw [hk1, hk2]

/-- Helper: a retrieved page is a member of the store. -/
theorem getPageMem (r : RemoteStore) (pid : String) (p : Page)
    (h : getPage r pid = some p) : p ∈ r.pages :=
  List.mem_of_find?_eq_some h

/-- Helper: the key of a log member is found by `lookupA`. -/
theorem lookupAIsSomeOfMem {α : Type} (l : List (String × α)) (kv : String × α)
    (h : kv ∈ l) : (lookupA l kv.1).isSome = true := by
  have hf : (l.find? (fun kv2 => kv2.1 = kv.1)).isSome = true := by
    rw [List.find?_isSome]
    exact ⟨kv, h, by simp⟩
  unfold lookupA
  cases hx : l.find? (fun kv2 => kv2.1 = kv.1) with
  | none => rw [hx] at hf; simp at hf
  | some v => rfl

/-- Helper: a pointwise-defined `Option` traversal succeeds and draws
its outputs from its inputs. -/
theorem mapMOptionSome {α β : Type} (f : α → Option β) :
    ∀ (l : List α), (∀ a ∈ l, (f a).isSome = true) →
      ∃ out, l.mapM f = some out ∧ ∀ b ∈ out, ∃ a ∈ l, f a = some b := by
  intro l
  induction l with
  | nil => intro _; exact ⟨[], rfl, by simp⟩
  | cons a l ih =>
    intro h
    obtain ⟨b, hb⟩ := Option.isSome_iff_exists.mp (h a (by simp))
    obtain ⟨out, hout, hmem⟩ := ih (fun x hx => h x (by simp [hx]))
    refine ⟨b :: out, ?_, ?_⟩
    · rw [List.mapM_cons, hb]
      simp only [Bind.bind, Option.bind]
      rw [hout]
      rfl
    · intro c hc
      rcases List.mem_cons.mp hc with rfl | hc2
      · exact ⟨a, by simp, hb⟩
      · obtain ⟨x, hx1, hx2⟩ := hmem c hc2
        exact ⟨x, by simp [hx1], hx2⟩

/-- Helper: stable insertion only inserts the given element. -/
theorem memInsertStable {α : Type} (le : α → α → Bool) (x y : α) :
    ∀ (l : List α), y ∈ insertStable le x l → y = x ∨ y ∈ l := by
  intro l
  induction l with
  | nil =>
    intro h
    simp [insertStable] at h
    exact Or.inl h
  | cons a l ih =>
    intro h
    unfold insertStable at h
    by_cases hle : le x a = true
    · rw [if_pos hle] at h
      rcases List.mem_cons.mp h with rfl | h2
      · exact Or.inl rfl
      · exact Or.inr h2
    · rw [if_neg hle] at h
      rcases List.mem_cons.mp h with rfl | h2
      · exact Or.inr (by simp)
      · rcases ih h2 with h3 | h3
        · exact Or.inl h3
        · exact Or.inr (by simp [h3])

/-- Helper: the stable sort permutes, hence preserves membership. -/
theorem memSortStable {α : Type} (le : α → α → Bool) (y : α) :
    ∀ (l : List α), y ∈ sortStable le l → y ∈ l := by
  intro l
  induction l with
  | nil => intro h; simp [sortStable] at h
  | cons a l ih =>
    intro h
    unfold sortStable at h
    rcases memInsertStable le a y _ h with rfl | h2
    · simp
    · simp [ih h2]

/-- Helper: when every snapshotted entry is alive, the deletion loop
returns its accumulator untouched. -/
theorem deletionFoldAllAlive (vr : FPath) (alive : List String) :
    ∀ (l : List (String × LogEntry))
      (acc : FS × List (String × LogEntry) × List Eff),
      (∀ kv ∈ l, alive.any (fun a => a = kv.1) = true) →
      l.foldl (deletionStep vr alive) acc = acc := by
  intro l
  induction l with
  | nil => intro acc _; rfl
  | cons kv l ih =>
    intro acc h
    rw [List.foldl_cons]
    have hs : deletionStep vr alive acc kv = acc := by
      unfold deletionStep
      rw [if_pos (h kv (by simp))]
    rw [hs]
    exact ih acc (fun x hx => h x (by simp [hx]))
/-- Helper: the root-title resolution of step 6 succeeds when every
root id resolves, and its outputs carry input ids. -/
theorem siblingKeyedOk (m : List (String × Page)) (r : RemoteStore) :
    ∀ (rids : List String),
      (∀ rid ∈ rids, (lookupOrFetch m r rid).isSome = true) →
      ∃ keyed, (rids.mapM (fun rid =>
          match lookupOrFetch m r rid with
          | some p => Except.ok (rid, titleOf p)
          | none => throw PullErr.dataErr) :
            Except PullErr (List (String × String))) = Except.ok keyed ∧
        ∀ x ∈ keyed, x.1 ∈ rids := by
  intro rids
  induction rids with
  | nil => intro _; exact ⟨[], rfl, by simp⟩
  | cons a l ih =>
    intro h
    obtain ⟨p, hp⟩ := Option.isSome_iff_exists.mp (h a (by simp))
    obtain ⟨keyed, hkeyed, hmem⟩ := ih (fun x hx => h x (by simp [hx]))
    refine ⟨(a, titleOf p) :: keyed, ?_, ?_⟩
    · rw [List.mapM_cons, hp]
      simp only [Bind.bind, Except.bind]
      rw [hkeyed]
      rfl
    · intro x hx
      rcases List.mem_cons.mp hx with rfl | hx2
      · simp
      · simp [hmem x hx2]

/-- Helper: the sibling-chain rewrite loop succeeds and only writes
files when every listed root's logged document is markdown on disk. -/
theorem siblingLoopOk (vr : FPath) (log : List (String × LogEntry)) :
    ∀ (lst : List (String × String)) (fs : FS) (tr : List Eff),
      (∀ x ∈ lst, ∃ e, lookupA log x.1 = some e ∧
        fs.isMdFile (vr ++ e.path) = true) →
      ∃ fs2 tr2, siblingLoop vr log fs tr lst = Except.ok (fs2, tr2) ∧
        countPatches tr2 = countPatches tr := by
  intro lst
  induction lst with
  | nil => intro fs tr _; exact ⟨fs, tr, rfl, rfl⟩
  | cons x rest ih =>
    obtain ⟨rid, tl⟩ := x
    intro fs tr h
    obtain ⟨e, hle, hmd⟩ := h (rid, tl) (by simp)
    have hfe := isMdFileExists _ _ hmd
    obtain ⟨fm, body, hget⟩ := isMdFileGetFile _ _ hmd
    obtain ⟨fs2, tr2, hrun, hcnt⟩ := ih
      (fs.writeFile (vr ++ e.path) (FileData.mdF fm
        (rebuildSiblingBody body (rest.head?.map (fun y => y.2)))))
      (tr ++ [Eff.fsWrite (vr ++ e.path)])
      (by
        intro y hy
        obtain ⟨e2, he2, hm2⟩ := h y (by simp [hy])
        exact ⟨e2, he2, isMdFileWriteMd _ _ _ _ _ hm2⟩)
    refine ⟨fs2, tr2, ?_, ?_⟩
    · unfold siblingLoop
      rw [hle]
      simp only [hfe, hget, decide_True, Bool.not_true, not_true, decide_False,
        Bool.false_eq_true, if_false, ite_false]
      exact hrun
    · rw [hcnt, countPatchesAppend]
      simp [countPatches, Eff.isPatchEff]

/-- Helper: step 6 end to end — with resolvable roots and a coherent
on-disk log, the sibling pass succeeds and issues no remote patch. -/
theorem siblingPassOk (vr : FPath) (m : List (String × Page)) (r : RemoteStore)
    (log : List (String × LogEntry)) (fs : FS)
    (hm : mapConsistent r m)
    (hres : ∀ kv ∈ log, (getPage r kv.1).isSome = true)
    (hmd : ∀ kv ∈ log, ∃ e, lookupA log kv.1 = some e ∧
      fs.isMdFile (vr ++ e.path) = true) :
    ∃ fs2 tr2, siblingPass vr m r log fs = Except.ok (fs2, tr2) ∧
      countPatches tr2 = 0 := by
  unfold siblingPass
  have hrids : ∀ rid ∈ (log.filter (fun kv => kv.2.parentId.isNone)).map
      (fun kv => kv.1), (lookupOrFetch m r rid).isSome = true := by
    intro rid hr
    obtain ⟨kv, hkv, heq⟩ := List.mem_map.mp hr
    rw [← heq, lookupOrFetchEq r m hm]
    exact hres kv (List.mem_of_mem_filter hkv)
  obtain ⟨keyed, hkeyed, hkmem⟩ := siblingKeyedOk m r _ hrids
  dsimp only
  rw [hkeyed]
  simp only [Bind.bind, Except.bind]
  have hlst : ∀ x ∈ sortStable (fun a b => lexLeS (lowerS a.2) (lowerS b.2)) keyed,
      ∃ e, lookupA log x.1 = some e ∧ fs.isMdFile (vr ++ e.path) = true := by
    intro x hx
    have hr1 := hkmem x (memSortStable _ x _ hx)
    obtain ⟨kv, hkv, heq⟩ := List.mem_map.mp hr1
    obtain ⟨e, he1, he2⟩ := hmd kv (List.mem_of_mem_filter hkv)
    rw [← heq]
    exact ⟨e, he1, he2⟩
  obtain ⟨fs2, tr2, hrun, hcnt⟩ := siblingLoopOk vr log _ fs [] hlst
  rw [hrun]
  exact ⟨fs2, tr2, rfl, by rw [hcnt]; rfl⟩

/-- Helper: every key of an all-alive log names a live remote page. -/
theorem logAllAliveSpec (r : RemoteStore) (log : List (String × LogEntry))
    (h : logAllAliveChk r log = true) (kv : String × LogEntry) (hkv : kv ∈ log) :
    ∃ p, p ∈ r.pages ∧ p.archived = false ∧ p.id = kv.1 := by
  unfold logAllAliveChk at h
  rw [List.all_eq_true] at h
  have hb := h kv hkv
  rw [List.any_eq_true] at hb
  obtain ⟨p, hp, hpb⟩ := hb
  rw [Bool.and_eq_true] at hpb
  refine ⟨p, hp, ?_, ?_⟩
  · rcases hpb.1 with hb1
    cases harch : p.archived with
    | false => rfl
    | true => rw [harch] at hb1; simp at hb1
  · have := hpb.2
    simpa using this

/-- C1 (amended): re-running pull on the state a completed pull left
behind — log, filesystem and remote in agreement, every logged id alive
— succeeds, issues zero remote patch (update) calls and leaves the
remote store untouched; it is *not* free of filesystem writes (see the
counterexample), only remote-patch-free. -/
theorem secondPullNoPatches (vr : FPath) (fuel : Nat) (r : RemoteStore)
    (clock : Nat) (fs : FS) (l : SyncLog)
    (hn : idsNodup r)
    (hal : logAllAliveChk r l.pages = true)
    (hcoh : coherentChk vr fuel r fs l.pages = true) :
    ∃ res, pull vr fuel r clock fs (some l) = Except.ok res ∧
      countPatches res.trace = 0 ∧ res.remote = r := by
  unfold pull
  dsimp only
  split
  · exact ⟨_, rfl, rfl, rfl⟩
  · have hm : mapConsistent r (buildPageMap r (computeDelta r l.lastPull) fuel) :=
      buildPageMapConsistent r hn l.lastPull fuel
    have hmem2 : ∀ p ∈ (buildPageMap r (computeDelta r l.lastPull) fuel).map
        (fun kv => kv.2), p ∈ r.pages := by
      intro p hp
      obtain ⟨kv, hkv, heq⟩ := List.mem_map.mp hp
      rw [← heq]
      exact getPageMem r kv.1 kv.2 (hm kv hkv)
    have hdep : ∀ p ∈ (buildPageMap r (computeDelta r l.lastPull) fuel).map
        (fun kv => kv.2),
        ((depthOf (buildPageMap r (computeDelta r l.lastPull) fuel) fuel p).map
          (fun d => (d, p))).isSome = true := by
      intro p hp
      obtain ⟨e, hle, hpar, hts, hbmp, hmdf⟩ :=
        coherentChkSpec vr fuel r fs l.pages hcoh p (hmem2 p hp)
      obtain ⟨parts, hbp⟩ : ∃ parts,
          buildPartsGo [] r fuel p [titleOf p] = some parts := by
        unfold buildMdPath buildParts at hbmp
        cases hb : buildPartsGo [] r fuel p [titleOf p] with
        | none => rw [hb] at hbmp; simp at hbmp
        | some ps => exact ⟨ps, rfl⟩
      have hds := depthSomeOfParts r
        (buildPageMap r (computeDelta r l.lastPull) fuel) hm fuel p
        [titleOf p] parts 0 hbp
      obtain ⟨d, hd⟩ := Option.isSome_iff_exists.mp hds
      unfold depthOf
      rw [hd]
      rfl
    obtain ⟨keyed, hkeyed, hkout⟩ := mapMOptionSome _ _ hdep
    have hsorted : sortPagesByDepth (buildPageMap r (computeDelta r l.lastPull) fuel)
        fuel ((buildPageMap r (computeDelta r l.lastPull) fuel).map (fun kv => kv.2)) =
        some ((sortStable (fun a b => decide (a.1 ≤ b.1)) keyed).map (fun kp => kp.2)) := by
      unfold sortPagesByDepth
      rw [hkeyed]
    rw [hsorted]
    simp only [pure_bind]
    have hsmem : ∀ p ∈ (sortStable (fun a b => decide (a.1 ≤ b.1)) keyed).map
        (fun kp => kp.2), p ∈ r.pages := by
      intro p hp
      obtain ⟨kp, hkp, heq⟩ := List.mem_map.mp hp
      obtain ⟨q, hq, hfq⟩ := hkout kp (memSortStable _ kp _ hkp)
      obtain ⟨d, hd1, hd2⟩ := Option.map_eq_some'.mp hfq
      rw [← heq, ← hd2]
      exact hmem2 q hq
    have hcoh0 : coherentChk vr fuel r (fs.mkdirParents (vr ++ [".sync"]))
        l.pages = true := hcoh
    have hfoldAll :=
      foldWritePagesCoherent vr r (buildPageMap r (computeDelta r l.lastPull) fuel)
        fuel hn hm
        ((sortStable (fun a b => decide (a.1 ≤ b.1)) keyed).map (fun kp => kp.2))
        { remote := r, clock := clock, fs := fs.mkdirParents (vr ++ [".sync"]),
          pagesLog := l.pages, trace := [] }
        hsmem rfl hcoh0
    obtain ⟨ctx1, hfold, hr1, hc1, hp1, hk1⟩ := hfoldAll
    simp only [hfold]
    simp only [Bind.bind, Except.bind]
    rw [hr1]
    have hkeys : ∀ kv ∈ ctx1.pagesLog, ∃ p, p ∈ r.pages ∧
        p.archived = false ∧ p.id = kv.1 := by
      intro kv hkv
      have h1 : kv.1 ∈ ctx1.pagesLog.map (fun kv => kv.1) :=
        List.mem_map_of_mem _ hkv
      rw [hk1] at h1
      obtain ⟨kv0, hkv0, heq⟩ := List.mem_map.mp h1
      obtain ⟨p, hp, ha, hid⟩ := logAllAliveSpec r l.pages hal kv0 hkv0
      exact ⟨p, hp, ha, by rw [hid, heq]⟩
    have hdel : (if ¬ (computeDelta r l.lastPull).isEmpty ||
          hygieneDue l.lastPull clock then
        deletionPass vr (((getPages r).filter (fun p => ¬ p.archived)).map
          (fun p => p.id)) ctx1.fs ctx1.pagesLog
      else (ctx1.fs, ctx1.pagesLog, [])) = (ctx1.fs, ctx1.pagesLog, []) := by
      split
      · unfold deletionPass
        apply deletionFoldAllAlive
        intro kv hkv
        obtain ⟨p, hp, ha, hid⟩ := hkeys kv hkv
        rw [List.any_eq_true]
        refine ⟨p.id, ?_, by simp [hid]⟩
        apply List.mem_map_of_mem
        apply List.mem_filter.mpr
        refine ⟨?_, by simp [ha]⟩
        unfold getPages
        apply List.mem_filter.mpr
        exact ⟨hp, by simp [ha]⟩
      · rfl
    rw [hdel]
    dsimp only
    obtain ⟨fs2, tr2, hsp, hcnt2⟩ := siblingPassOk vr
      (buildPageMap r (computeDelta r l.lastPull) fuel) r ctx1.pagesLog ctx1.fs hm
      (by
        intro kv hkv
        obtain ⟨p, hp, ha, hid⟩ := hkeys kv hkv
        unfold getPage
        rw [List.find?_isSome]
        exact ⟨p, hp, by simp [hid]⟩)
      (by
        intro kv hkv
        obtain ⟨p, hp, ha, hid⟩ := hkeys kv hkv
        obtain ⟨e, hle, h1, h2, h3, hmdf⟩ :=
          coherentChkSpec vr fuel r ctx1.fs ctx1.pagesLog hc1 p hp
        rw [← hid]
        exact ⟨e, hle, hmdf⟩)
    rw [hsp]
    have hp1z : countPatches ctx1.trace = 0 := by rw [hp1]; rfl
    refine ⟨_, rfl, ?_, rfl⟩
    dsimp only
    rw [countPatchesAppend, countPatchesAppend, countPatchesAppend, hp1z, hcnt2]
    rfl

/-- C1 (witness): the patch-free second run, at the concrete coherent
single-page state. -/
theorem secondPullNoPatchesWitness :
    (idsNodup remoteOne ∧ logAllAliveChk remoteOne cohLog.pages = true ∧
      coherentChk vaultRoot 10 remoteOne cohFs cohLog.pages = true) ∧
    ∃ res, pull vaultRoot 10 remoteOne 200 cohFs (some cohLog) = Except.ok res ∧
      countPatches res.trace = 0 ∧ res.remote = remoteOne :=
  ⟨⟨by unfold idsNodup; decide, by decide, by decide⟩,
    secondPullNoPatches vaultRoot 10 remoteOne 200 cohFs cohLog
      (by unfold idsNodup; decide) (by decide) (by decide)⟩

/-- C4 (amended): whenever a pull run completes without taking the fast
exit, the sync log is committed as the final effect of the run by one
plain write to the real log path — not to a temporary location, and
with no rename step after it. -/
theorem commitIsSingleFinalDirectWrite (vr : FPath) (fuel : Nat)
    (r : RemoteStore) (clock : Nat) (fs : FS) (sl : Option SyncLog)
    (res : PullResult)
    (h : pull vr fuel r clock fs sl = Except.ok res)
    (hf : res.fastExit = false) :
    res.trace.getLast? = some (Eff.writeLog (logPathOf vr)) := by
  unfold pull at h
  dsimp only at h
  split at h
  · simp only [pure, Except.pure, Except.ok.injEq] at h
    rw [← h] at hf
    simp at hf
  · split at h
    · simp only [Bind.bind, Except.bind, pure, Except.pure] at h
      split at h
      · simp at h
      · split at h
        · simp at h
        · simp only [Except.ok.injEq] at h
          rw [← h]
          dsimp only
          exact List.getLast?_concat _
    · simp [Bind.bind, Except.bind, throw, throwThe, MonadExceptOf.throw] at h

/-- C4 (witness): the bootstrap run over the single-page remote ends
with the one direct log write. -/
theorem commitIsSingleFinalDirectWriteWitness :
    ∃ res, pull vaultRoot 10 remoteOne 200 fsVault0 none = Except.ok res ∧
      res.trace.getLast? = some (Eff.writeLog (logPathOf vaultRoot)) := by
  cases hrun : pull vaultRoot 10 remoteOne 200 fsVault0 none with
  | error e =>
    have h2 : (pull vaultRoot 10 remoteOne 200 fsVault0 none).toOption.map
        (fun x => x.fastExit) = some false := by decide
    rw [hrun] at h2
    simp [Except.toOption] at h2
  | ok res =>
    have hfast : res.fastExit = false := by
      have h2 : (pull vaultRoot 10 remoteOne 200 fsVault0 none).toOption.map
          (fun x => x.fastExit) = some false := by decide
      rw [hrun] at h2
      simpa [Except.toOption] using h2
    exact ⟨res, rfl, commitIsSingleFinalDirectWrite vaultRoot 10 remoteOne 200
      fsVault0 none res hrun hfast⟩

/-- C6 (witness): the move-kind characterization applied to the rename
scenario whose old directory holds only the node's own document. -/
theorem moveKindWitness :
    (moveStep ["vault"] renameCtx renameEntry ["new", "new.md"]).trace.any
        Eff.isMoveDirEff =
      (renameCtx.fs.dirExists (["vault"] ++ renameEntry.path).dropLast &&
        renameCtx.fs.dirNonempty (["vault"] ++ renameEntry.path).dropLast &&
        decide ((["vault"] ++ renameEntry.path).dropLast ≠
          (["vault"] ++ ["new", "new.md"]).dropLast)) :=
  (moveKindMatchesDirOccupancy ["vault"] renameCtx renameEntry
    ["new", "new.md"] rfl).1

end Parivaha
